import Mathlib

/-!
Verification of the eachtools broadcast-alignment and compound indexing engine.

This file gives a shallow embedding of `src/eachtools.py` (the `each`
distributed-container library).  Python values are modelled by the inductive
type `PyVal`; an each-container (`EachContainer` / `EachMapping`) is modelled
by `EachC`, carrying an object id (modelling Python object identity), a class
tag, the wrapped collection (`Whole`), and the nesting spec.  Errors raised by
the Python code are modelled with `Except Err`.  Functions that recurse
through nested each-containers take an explicit fuel argument (`Nat`) so that
all definitions are structurally recursive and kernel-reducible; fuel is only
consumed when recursing into a nested `veach` value, so on flat containers the
results are independent of the fuel supplied (as the theorems below show by
quantifying over the fuel).

The EachSet variant of the library is not exercised by any statement proved
here and is not modelled.
-/

inductive NestSpec where
  | nnext
  | lvl (k : Int)
  | inf
deriving DecidableEq, Repr

inductive SeqKind where
  | klist
  | ktupl
  | kdeque
deriving DecidableEq, Repr

inductive ECls where
  | containerCls
  | mapCls
deriving DecidableEq, Repr

mutual
inductive PyVal : Type where
  | vint (i : Int)
  | vbool (b : Bool)
  | vstr (s : String)
  | vlist (l : List PyVal)
  | vdict (ks : List PyVal) (vs : List PyVal)
  | veach (e : EachC)
deriving Repr
inductive EachC : Type where
  | mk (oid : Nat) (cls : ECls) (whole : Whole) (nested : NestSpec)
deriving Repr
inductive Whole : Type where
  | wseq (k : SeqKind) (mem : List PyVal)
  | wmap (ks : List PyVal) (vs : List PyVal)
deriving Repr
end

inductive Err where
  | typeErr
  | valueErr
  | keyErr
  | indexErr
  | attributeErr
  | stopIter
  | noFuel
deriving DecidableEq, Repr

def EachC.oid : EachC → Nat
  | .mk i _ _ _ => i

def EachC.cls : EachC → ECls
  | .mk _ c _ _ => c

def EachC.whole : EachC → Whole
  | .mk _ _ w _ => w

def EachC.nested : EachC → NestSpec
  | .mk _ _ _ n => n

/-- Python `==` between values, fueled.  Scalar comparisons never consume
fuel.  `EachContainer` does not define `__eq__`, so two container-class
wrappers compare by object identity (modelled by `oid`); `EachMapping`
inherits `Mapping.__eq__`, which compares as dictionaries. -/
def beqValF : Nat → PyVal → PyVal → Bool
  | _, .vint a, .vint b => a == b
  | _, .vint a, .vbool b => a == (if b then 1 else 0)
  | _, .vbool a, .vint b => (if a then (1 : Int) else 0) == b
  | _, .vbool a, .vbool b => a == b
  | _, .vstr a, .vstr b => a == b
  | f + 1, .vlist a, .vlist b =>
      a.length == b.length && (a.zip b).all (fun p => beqValF f p.1 p.2)
  | f + 1, .vdict ka va, .vdict kb vb =>
      ka.length == kb.length && ((ka.zip kb).all (fun p => beqValF f p.1 p.2))
        && va.length == vb.length && ((va.zip vb).all (fun p => beqValF f p.1 p.2))
  | f + 1, .veach a, .veach b =>
      (match a.cls, b.cls with
       | .mapCls, .mapCls =>
         (match a.whole, b.whole with
          | .wmap ka va, .wmap kb vb =>
              ka.length == kb.length && ((ka.zip kb).all (fun p => beqValF f p.1 p.2))
                && va.length == vb.length && ((va.zip vb).all (fun p => beqValF f p.1 p.2))
          | _, _ => false)
       | _, _ => a.oid == b.oid)
  | _, _, _ => false

-- === basic views on collections ===

def lenWhole : Whole → Nat
  | .wseq _ mem => mem.length
  | .wmap ks _ => ks.length

/-- Iterating the raw wrapped collection (`for x in whole`): a sequence yields
its members, a dict yields its keys. -/
def iterWhole : Whole → List PyVal
  | .wseq _ mem => mem
  | .wmap ks _ => ks

def wholeKeys : Whole → List PyVal
  | .wseq _ mem => (List.range mem.length).map (fun (i : Nat) => PyVal.vint (i : Int))
  | .wmap ks _ => ks

/-- Python `len` of a sized value (only meaningful on collections; raw scalars
never reach the places where this is used because `as_sized_iterable` wraps
them first). -/
def lenC : PyVal → Nat
  | .vint _ => 0
  | .vbool _ => 0
  | .vstr s => s.length
  | .vlist l => l.length
  | .vdict ks _ => ks.length
  | .veach e => lenWhole e.whole

/-- `isinstance(x, Mapping)`: raw dicts, and each-wrappers of class
`EachMapping`.  A container-class wrapper is not a `Mapping` even when its
wrapped collection happens to be a dict. -/
def isMapV : PyVal → Bool
  | .vdict _ _ => true
  | .veach e => e.cls == .mapCls
  | _ => false

def isIterableV : PyVal → Bool
  | .vint _ => false
  | .vbool _ => false
  | _ => true

def isStrV : PyVal → Bool
  | .vstr _ => true
  | _ => false

/-- `x is True or x is False`: an identity test against the two bool
singletons, satisfied exactly by bool values. -/
def isBoolLit : PyVal → Bool
  | .vbool _ => true
  | _ => false

def isTrueLit : PyVal → Bool
  | .vbool b => b
  | _ => false

/-- Python `__index__`-style view of a value as an integer index (bools are
ints in Python). -/
def intish : PyVal → Option Int
  | .vint i => some i
  | .vbool b => some (if b then 1 else 0)
  | _ => none

-- === Except-valued list combinators (kernel-reducible, induction friendly) ===

def exMap (f : α → Except Err β) : List α → Except Err (List β)
  | [] => .ok []
  | x :: xs => do
      let y ← f x
      let ys ← exMap f xs
      .ok (y :: ys)

def exFilter (f : α → Except Err Bool) : List α → Except Err (List α)
  | [] => .ok []
  | x :: xs => do
      let b ← f x
      let ys ← exFilter f xs
      .ok (if b then x :: ys else ys)

-- === dictionary primitives ===

/-- Python dict lookup on the parallel key/value lists of a `wmap`. -/
def lookupPairs (f : Nat) : List PyVal → List PyVal → PyVal → Except Err PyVal
  | [], _, _ => .error .keyErr
  | _ :: _, [], _ => .error .keyErr
  | k0 :: ks, v0 :: vs, k =>
      if beqValF f k0 k then .ok v0 else lookupPairs f ks vs k

/-- Python dict item assignment: overwrite in place if the key is present,
otherwise append (insertion order preserved). -/
def dictSetPairs (f : Nat) : List PyVal → List PyVal → PyVal → PyVal → List PyVal × List PyVal
  | [], _, k, v => ([k], [v])
  | ks, [], k, _v => (ks ++ [k], [])
  | k0 :: ks, v0 :: vs, k, v =>
      if beqValF f k0 k then (k0 :: ks, v :: vs)
      else
        let r := dictSetPairs f ks vs k v
        (k0 :: r.1, v0 :: r.2)

/-- Python dict comprehension over a list of key/value pairs: later pairs with
an equal key overwrite earlier ones, keeping the first insertion position. -/
def dictOfZip (f : Nat) (l : List (PyVal × PyVal)) : List PyVal × List PyVal :=
  l.foldl (fun acc p => dictSetPairs f acc.1 acc.2 p.1 p.2) ([], [])

-- === sequence indexing primitives ===

/-- Python sequence `s[i]` with an integer key: negative indices count from
the end, out-of-range raises IndexError, non-integer keys raise TypeError. -/
def pyGetSeqIdx (mem : List PyVal) (k : PyVal) : Except Err PyVal :=
  match intish k with
  | none => .error .typeErr
  | some i =>
      let j := if i < 0 then i + mem.length else i
      if j < 0 then .error .indexErr
      else
        match mem.get? j.toNat with
        | some v => .ok v
        | none => .error .indexErr

def pySetSeqIdx (mem : List PyVal) (k v : PyVal) : Except Err (List PyVal) :=
  match intish k with
  | none => .error .typeErr
  | some i =>
      let j := if i < 0 then i + mem.length else i
      if j < 0 then .error .indexErr
      else if j.toNat < mem.length then .ok (mem.set j.toNat v)
      else .error .indexErr

/-- `whole[k]` for the wrapped collection: sequences index positionally,
dicts look keys up. -/
def pyGetWholeKey (f : Nat) (w : Whole) (k : PyVal) : Except Err PyVal :=
  match w with
  | .wseq _ mem => pyGetSeqIdx mem k
  | .wmap ks vs => lookupPairs f ks vs k

/-- `whole[k] = v`: lists and deques support item assignment, tuples raise
TypeError, dicts insert or overwrite. -/
def pySetWholeKey (f : Nat) (w : Whole) (k v : PyVal) : Except Err Whole :=
  match w with
  | .wseq .ktupl _ => .error .typeErr
  | .wseq kind mem => do
      let mem2 ← pySetSeqIdx mem k v
      .ok (.wseq kind mem2)
  | .wmap ks vs =>
      let r := dictSetPairs f ks vs k v
      .ok (.wmap r.1 r.2)

/-- `hasattr(type(whole), '__setitem__')`: true for list, deque and dict
backings, false for tuples. -/
def wholeSetitemable : Whole → Bool
  | .wseq .ktupl _ => false
  | _ => true

-- === nesting specs ===

/-- `self._each_nested is next or self._each_nested > 1` (the condition under
which `values()`/`themselves` wrap members in `each(...)`). -/
def nestWrapMore : NestSpec → Bool
  | .nnext => true
  | .lvl k => 1 < k
  | .inf => true

/-- `next if nested is next else nested - 1` (infinity minus one stays
infinity). -/
def nestDec : NestSpec → NestSpec
  | .nnext => .nnext
  | .lvl k => .lvl (k - 1)
  | .inf => .inf

/-- Python `max(nested, source._each_nested)` in the `each` factory; comparing
an int or infinity against the builtin `next` sentinel raises TypeError. -/
def pyMaxNested : NestSpec → NestSpec → Except Err NestSpec
  | .nnext, _ => .error .typeErr
  | _, .nnext => .error .typeErr
  | .inf, _ => .ok .inf
  | _, .inf => .ok .inf
  | .lvl a, .lvl b => .ok (.lvl (max a b))

-- === the each() factory restricted to one member with enlist=False ===

/-- Model of `each(i, nested=ns, enlist=False)` as used by
`EachContainer.values`/`themselves`: a non-string scalar is returned as is;
an existing each-wrapper is rebuilt around its own wrapped collection with
the combined nesting; other iterables (and, through the final catch-all
branch of `each`, strings) are wrapped fresh.  Containers created here get
object id 0 (fresh anonymous objects). -/
def eachWrap (ns : NestSpec) (i : PyVal) : Except Err PyVal :=
  match i with
  | .vstr s => .ok (.veach (.mk 0 .containerCls (.wseq .klist [.vstr s])
      (if ns == .nnext then .lvl 1 else ns)))
  | .veach e => do
      let ns2 ← if ns == .nnext then pure NestSpec.nnext else pyMaxNested ns e.nested
      match e.whole with
      | .wmap ks vs => .ok (.veach (.mk 0 .mapCls (.wmap ks vs) ns2))
      | .wseq kind mem => .ok (.veach (.mk 0 .containerCls (.wseq kind mem) ns2))
  | .vlist l => .ok (.veach (.mk 0 .containerCls (.wseq .klist l)
      (if ns == .nnext then .lvl 1 else ns)))
  | .vdict ks vs => .ok (.veach (.mk 0 .mapCls (.wmap ks vs)
      (if ns == .nnext then .lvl 1 else ns)))
  | v => .ok v

/-- `EachContainer.values()` / `EachMapping.values()`.  The mapping subclass
returns the dict's values directly; the container class iterates the wrapped
collection, wrapping members in `each(...)` when the nesting spec asks for
more levels. -/
def valuesEach (E : EachC) : Except Err (List PyVal) :=
  match E.cls with
  | .mapCls =>
      match E.whole with
      | .wmap _ vs => .ok vs
      | .wseq _ _ => .error .attributeErr
  | .containerCls =>
      if nestWrapMore E.nested then exMap (eachWrap (nestDec E.nested)) (iterWhole E.whole)
      else .ok (iterWhole E.whole)

/-- `EachContainer.__iter__`: iterate `values()`, flattening nested
each-containers (`yield from i`). -/
def iterEach : Nat → EachC → Except Err (List PyVal)
  | 0, _ => .error .noFuel
  | f + 1, E => do
      let vs ← valuesEach E
      let parts ← exMap (fun v =>
        match v with
        | .veach e2 => iterEach f e2
        | w => .ok [w]) vs
      .ok parts.flatten

def charStr (c : Char) : PyVal := .vstr (String.mk [c])

/-- `next(iter(source))`: the first element yielded by iterating `source`
(strings yield one-character strings, dicts yield keys, each-containers use
their flattening iterator). -/
def firstIter (fuel : Nat) (v : PyVal) : Except Err PyVal :=
  match v with
  | .vlist (x :: _) => .ok x
  | .vlist [] => .error .stopIter
  | .vstr s =>
      match s.data with
      | c :: _ => .ok (charStr c)
      | [] => .error .stopIter
  | .vdict (k :: _) _ => .ok k
  | .vdict [] _ => .error .stopIter
  | .veach e => do
      let l ← iterEach fuel e
      match l with
      | x :: _ => .ok x
      | [] => .error .stopIter
  | _ => .error .typeErr

/-- Plain iteration of a sized collection (`return source` at the end of
`broadcast_to_indices`). -/
def collElems : PyVal → List PyVal
  | .vlist l => l
  | .vstr s => s.data.map charStr
  | .vdict ks _ => ks
  | _ => []

/-- Elements produced by iterating an iterable index/value object: lists give
their members, each-wrappers use the flattening iterator, dicts yield keys. -/
def elemsOfIter (fuel : Nat) (v : PyVal) : Except Err (List PyVal) :=
  match v with
  | .vlist l => .ok l
  | .vdict ks _ => .ok ks
  | .vstr s => .ok (s.data.map charStr)
  | .veach e => iterEach fuel e
  | _ => .error .typeErr

-- === comparisons on scalars (Python `<`, `<=`) ===

def charsLt : List Char → List Char → Bool
  | [], [] => false
  | [], _ :: _ => true
  | _ :: _, [] => false
  | a :: as_, b :: bs => if a = b then charsLt as_ bs else a < b

def strLtB (a b : String) : Bool := charsLt a.data b.data

inductive CmpOp where
  | clt
  | cle
  | cgt
  | cge
deriving DecidableEq, Repr

/-- Which comparison the reflected operand sees: `x > E` falls back to
`E.__lt__(x)` and so on. -/
def cmpSwap : CmpOp → CmpOp
  | .clt => .cgt
  | .cgt => .clt
  | .cle => .cge
  | .cge => .cle

def cmpIntB : CmpOp → Int → Int → Bool
  | .clt, a, b => a < b
  | .cle, a, b => a ≤ b
  | .cgt, a, b => b < a
  | .cge, a, b => b ≤ a

def cmpStrB : CmpOp → String → String → Bool
  | .clt, a, b => strLtB a b
  | .cle, a, b => strLtB a b || a == b
  | .cgt, a, b => strLtB b a
  | .cge, a, b => strLtB b a || a == b

/-- Non-distributed Python comparison on scalars, as used inside the
indexing engine (`start <= key`, `key < stop`, ...); mixed int/str
comparisons raise TypeError in Python 3. -/
def cmpScalarB (op : CmpOp) (a b : PyVal) : Except Err Bool :=
  match intish a, intish b with
  | some i, some j => .ok (cmpIntB op i j)
  | _, _ =>
      match a, b with
      | .vstr s, .vstr t => .ok (cmpStrB op s t)
      | _, _ => .error .typeErr

-- === substring test (`'a' in 'abc'`) ===

def chPrefix : List Char → List Char → Bool
  | [], _ => true
  | _ :: _, [] => false
  | a :: as_, b :: bs => a = b && chPrefix as_ bs

def chSubstr (nd : List Char) : List Char → Bool
  | [] => chPrefix nd []
  | c :: rest => chPrefix nd (c :: rest) || chSubstr nd rest

def substrB (needle hay : String) : Bool := chSubstr needle.data hay.data

-- === slices ===

/-- A Python `slice` object; components are arbitrary objects (list slicing
requires ints, keyed slicing compares bounds against keys). -/
structure PySlice where
  start : Option PyVal
  stop : Option PyVal
  step : Option PyVal
deriving Repr

def sliceCompInt : Option PyVal → Except Err (Option Int)
  | none => .ok none
  | some v =>
      match intish v with
      | some i => .ok (some i)
      | none => .error .typeErr

/-- One bound of `slice.indices(n)`: normalize negatives and clamp, with the
clamping regime depending on the sign of the step. -/
def sliceNorm (n step dflt : Int) (o : Option Int) : Int :=
  match o with
  | none => dflt
  | some s =>
      let s1 := if s < 0 then s + n else s
      if 0 < step then max 0 (min s1 n)
      else if s1 < 0 then -1 else min s1 (n - 1)

/-- The positions selected by native Python sequence slicing (`slice.indices`
semantics, including negative steps); a zero step raises ValueError and
non-integer components raise TypeError. -/
def pySlicePositions (len : Nat) (sl : PySlice) : Except Err (List Nat) := do
  let sto ← sliceCompInt sl.start
  let spo ← sliceCompInt sl.stop
  let stpo ← sliceCompInt sl.step
  let step := stpo.getD 1
  if step == 0 then .error .valueErr
  else
    let n : Int := len
    if 0 < step then
      let st := sliceNorm n step 0 sto
      let sp := sliceNorm n step n spo
      .ok ((List.range len).filter
        (fun (p : Nat) => decide (st ≤ (p : Int)) && decide ((p : Int) < sp)
          && (((p : Int) - st) % step == 0)))
    else
      let st := sliceNorm n step (n - 1) sto
      let sp := sliceNorm n step (-1) spo
      .ok (((List.range len).filter
        (fun (p : Nat) => decide (sp < (p : Int)) && decide ((p : Int) ≤ st)
          && ((st - (p : Int)) % (-step) == 0))).reverse)

def getAtPositions (mem : List PyVal) (ps : List Nat) : List PyVal :=
  ps.filterMap mem.get?

def pySliceElems (mem : List PyVal) (sl : PySlice) : Except Err (List PyVal) :=
  (pySlicePositions mem.length sl).map (getAtPositions mem)

/-- `self.whole[domain_index]` for a slice index: lists and tuples support
native slicing (keeping their own kind), deques raise TypeError, dicts cannot
hash a slice. -/
def nativeSliceWhole (w : Whole) (sl : PySlice) : Except Err (SeqKind × List PyVal) :=
  match w with
  | .wseq .kdeque _ => .error .typeErr
  | .wseq kind mem => (pySliceElems mem sl).map (fun l => (kind, l))
  | .wmap _ _ => .error .typeErr

/-- `itertools.islice(l, st, sp, step)`: start and stop must be non-negative,
the step must be `None` or a positive integer, otherwise ValueError. -/
def isliceL (l : List PyVal) (st sp : Int) (stpo : Option PyVal) : Except Err (List PyVal) := do
  let step ← match stpo with
    | none => pure (1 : Int)
    | some v =>
        match intish v with
        | some i => if i ≤ 0 then Except.error Err.valueErr else pure i
        | none => Except.error Err.valueErr
  if st < 0 then .error .valueErr
  else if sp < 0 then .error .valueErr
  else .ok (getAtPositions l ((List.range l.length).filter
    (fun (p : Nat) => decide (st ≤ (p : Int)) && decide ((p : Int) < sp)
      && (((p : Int) - st) % step == 0))))

/-- The slice-approximation arm for positional containers, translated from
`EachContainer.__getitem__` lines 707-709 of the source, *including* the slip
on the stop bound: `if stop < 0: start += len(self.whole)` adds the length to
`start` (not `stop`) and leaves `stop` negative.  A `None` start or stop
raises TypeError here because the code compares it against 0. -/
def approxSeqSliceElems (E : EachC) (sl : PySlice) : Except Err (List PyVal) := do
  let n : Int := lenWhole E.whole
  let st0 ← match sl.start with
    | none => Except.error Err.typeErr
    | some v =>
        match intish v with
        | some i => pure i
        | none => Except.error Err.typeErr
  let st1 := if st0 < 0 then st0 + n else st0
  let sp0 ← match sl.stop with
    | none => Except.error Err.typeErr
    | some v =>
        match intish v with
        | some i => pure i
        | none => Except.error Err.typeErr
  let st2 := if sp0 < 0 then st1 + n else st1
  isliceL (iterWhole E.whole) st2 sp0 sl.step

/-- The keyed slice-approximation: keep the items whose key lies in
`[start, stop)`, with short-circuit evaluation of the two bound tests. -/
def mapSliceFilter (sl : PySlice) : List PyVal → List PyVal → Except Err (List PyVal × List PyVal)
  | [], _ => .ok ([], [])
  | _ :: _, [] => .ok ([], [])
  | k :: ks, v :: vs => do
      let keep ← (do
        let c1 ← match sl.start with
          | none => pure true
          | some b => cmpScalarB .cle b k
        if c1 then
          match sl.stop with
          | none => pure true
          | some b => cmpScalarB .clt k b
        else pure false)
      let rest ← mapSliceFilter sl ks vs
      .ok (if keep then (k :: rest.1, v :: rest.2) else rest)

-- === the read path of the compound indexing engine ===

inductive GetRes where
  | member (v : PyVal)
  | cont (e : EachC)
deriving Repr

def getResVal : GetRes → PyVal
  | .member v => v
  | .cont e => .veach e

inductive Ix where
  | islice (sl : PySlice)
  | ival (v : PyVal)
deriving Repr

/-- The key and value lists of a mapping index object (`.items()`). -/
def mapKVOf : PyVal → Except Err (List PyVal × List PyVal)
  | .vdict ks vs => .ok (ks, vs)
  | .veach (.mk _ _ (.wmap ks vs) _) => .ok (ks, vs)
  | .veach (.mk _ _ (.wseq _ _) _) => .error .attributeErr
  | _ => .error .typeErr

/-- Boolean-mask selection on a keyed container:
`{key: value for key, value in self.items() if mask[key] is True}`. -/
def maskFilterKV (f : Nat) (mks mvs : List PyVal) : List PyVal → List PyVal → Except Err (List PyVal × List PyVal)
  | [], _ => .ok ([], [])
  | _ :: _, [] => .ok ([], [])
  | k :: ks, v :: vs => do
      let b ← lookupPairs f mks mvs k
      let rest ← maskFilterKV f mks mvs ks vs
      .ok (if isTrueLit b then (k :: rest.1, v :: rest.2) else rest)

/-- Boolean-mask (mapping-shaped mask) selection on a positional container:
`(value for index, value in enumerate(self.whole) if mask[index] is True)`. -/
def maskPickSeqAux (f : Nat) (mks mvs : List PyVal) : Nat → List PyVal → Except Err (List PyVal)
  | _, [] => .ok []
  | i, v :: vs => do
      let b ← lookupPairs f mks mvs (.vint i)
      let rest ← maskPickSeqAux f mks mvs (i + 1) vs
      .ok (if isTrueLit b then v :: rest else rest)

/-- Boolean-mask (sequence-shaped mask) selection on a dict-backed container:
`{index: whole[index] for index, boolean in enumerate(mask) if boolean is True}`. -/
def maskEnumMapAux (f : Nat) (ks vs : List PyVal) : Nat → List PyVal → Except Err (List PyVal × List PyVal)
  | _, [] => .ok ([], [])
  | i, b :: bs =>
      if isTrueLit b then do
        let v ← lookupPairs f ks vs (.vint i)
        let rest ← maskEnumMapAux f ks vs (i + 1) bs
        .ok (.vint i :: rest.1, v :: rest.2)
      else maskEnumMapAux f ks vs (i + 1) bs

/-- `EachContainer.__getitem__` for a single (non-tuple) index, i.e. with no
trailing range indices.  `fid` is the object id given to a freshly built
result container.  Branch order follows the source: full-slice fast path,
slice (native first, then approximation), mapping index (mask or key-remap),
iterable index (mask or index list), then scalar key. -/
def eachGetD (fuel fid : Nat) (E : EachC) (ix : Ix) : Except Err GetRes :=
  match ix with
  | .islice ⟨none, none, none⟩ => .ok (.cont E)
  | .islice sl =>
      match nativeSliceWhole E.whole sl with
      | .ok (kind, elems) =>
          .ok (.cont (.mk fid .containerCls (.wseq kind elems) E.nested))
      | .error _ =>
          if E.cls == .mapCls then
            match E.whole with
            | .wmap ks vs => do
                let r ← mapSliceFilter sl ks vs
                .ok (.cont (.mk fid .mapCls (.wmap r.1 r.2) E.nested))
            | .wseq _ _ => .error .attributeErr
          else do
            let elems ← approxSeqSliceElems E sl
            .ok (.cont (.mk fid .containerCls (.wseq .klist elems) E.nested))
  | .ival m =>
      if isMapV m then do
        let kv ← mapKVOf m
        if kv.2.all isBoolLit then
          if E.cls == .mapCls then
            match E.whole with
            | .wmap ks vs => do
                let r ← maskFilterKV fuel kv.1 kv.2 ks vs
                .ok (.cont (.mk fid .mapCls (.wmap r.1 r.2) E.nested))
            | .wseq _ _ => .error .attributeErr
          else do
            let picked ← maskPickSeqAux fuel kv.1 kv.2 0 (iterWhole E.whole)
            .ok (.cont (.mk fid .containerCls (.wseq .klist picked) E.nested))
        else do
          let vals ← exMap (pyGetWholeKey fuel E.whole) kv.2
          .ok (.cont (.mk fid .containerCls (.wmap kv.1 vals) E.nested))
      else if isIterableV m && !(isStrV m) then do
        let elems ← elemsOfIter fuel m
        if lenC m == lenWhole E.whole && elems.all isBoolLit then
          match E.whole with
          | .wmap ks vs => do
              let r ← maskEnumMapAux fuel ks vs 0 elems
              .ok (.cont (.mk fid .mapCls (.wmap r.1 r.2) E.nested))
          | .wseq _ mem =>
              .ok (.cont (.mk fid .containerCls
                (.wseq .klist (((mem.zip elems).filter (fun p => isTrueLit p.2)).map (fun p => p.1)))
                E.nested))
        else do
          let vals ← exMap (pyGetWholeKey fuel E.whole) elems
          .ok (.cont (.mk fid .containerCls (.wseq .klist vals) E.nested))
      else do
        let v ← pyGetWholeKey fuel E.whole m
        .ok (.member v)

-- === source normalization and broadcast_to_indices ===

/-- `as_sized_iterable`: strings and non-iterable scalars are wrapped in a
one-element tuple; sized iterables are returned as they are. -/
def as_sized_iterable : PyVal → PyVal
  | .vstr s => .vlist [.vstr s]
  | .vint i => .vlist [.vint i]
  | .vbool b => .vlist [.vbool b]
  | v => v

inductive Indices where
  | irange (n : Nat)
  | ikeys (ks : List PyVal)
deriving Repr

/-- The keys/positions enumerated by an index domain (`zip(B.indices, ...)`). -/
def indexList : Indices → List PyVal
  | .irange n => (List.range n).map (fun (i : Nat) => PyVal.vint (i : Int))
  | .ikeys ks => ks

/-- `source[i]` as used inside `broadcast_to_indices`: dict lookup, a single
getitem on an each-wrapper, or positional indexing of a raw sequence. -/
def srcLookup (fuel : Nat) (source k : PyVal) : Except Err PyVal :=
  match source with
  | .vdict ks vs => lookupPairs fuel ks vs k
  | .veach e => (eachGetD fuel 0 e (.ival k)).map getResVal
  | .vlist l => pyGetSeqIdx l k
  | .vstr s => pyGetSeqIdx (s.data.map charStr) k
  | _ => .error .typeErr

/-- `broadcast_to_indices(source, n, indices)`: mappings are looked up at all
the indices; a length-1 source repeats its single element; non-range indices
are looked up; in the range case a source shorter than `n` raises ValueError
(the BroadcastLengthMismatch of the spec), an each-container yields its
`values()`, and any other source is iterated as is (and truncated by `zip`
when it is longer than `n`). -/
def bti (fuel : Nat) (source : PyVal) (n : Nat) (ix : Indices) : Except Err (List PyVal) :=
  if isMapV source then exMap (srcLookup fuel source) (indexList ix)
  else if lenC source == 1 then do
    let x ← firstIter fuel source
    .ok (List.replicate n x)
  else
    match ix with
    | .ikeys ks => exMap (srcLookup fuel source) ks
    | .irange _ =>
        if lenC source < n then .error .valueErr
        else
          match source with
          | .veach e => valuesEach e
          | s => .ok (collElems s)

-- === BroadcastHandler (specialized to one or two sources) ===

/-- A source is non-broadcastable when its length differs from 1 or it is a
mapping (mapping keys carry meaning even at length 1). -/
def nonBroadcastable (s : PyVal) : Bool := lenC s != 1 || isMapV s

def mapKeysOf : PyVal → List PyVal
  | .vdict ks _ => ks
  | .veach (.mk _ _ (.wmap ks _) _) => ks
  | _ => []

structure BH2 where
  s0 : PyVal
  s1 : PyVal
  E : EachC
  n : Nat
  indices : Indices

/-- `BroadcastHandler(self, other, match_first=...)`: normalize the sources,
pick the model (the first source when `match_first`, otherwise the first
non-broadcastable source, defaulting to the first), set `n` to its length,
and use the model's keys as the index domain exactly when the model is a
mapping and every source is broadcastable or a mapping; otherwise use
`range(n)`. -/
def mkBH2 (E : EachC) (other : PyVal) (matchFirst : Bool) : BH2 :=
  let s0 : PyVal := .veach E
  let s1 := as_sized_iterable other
  let model :=
    if matchFirst then s0
    else if nonBroadcastable s0 then s0
    else if nonBroadcastable s1 then s1
    else s0
  let n := lenC model
  let indices :=
    if isMapV model && (lenC s0 == 1 || isMapV s0) && (lenC s1 == 1 || isMapV s1)
    then Indices.ikeys (mapKeysOf model)
    else Indices.irange n
  ⟨s0, s1, E, n, indices⟩

/-- `for tup in B`: zip the per-source broadcast iterators (zip truncates to
the shorter side). -/
def bh2Pairs (fuel : Nat) (B : BH2) : Except Err (List (PyVal × PyVal)) := do
  let a ← bti fuel B.s0 B.n B.indices
  let b ← bti fuel B.s1 B.n B.indices
  .ok (a.zip b)

/-- `B(it)`, the result builder: with a positional index domain, a fresh
container of the first source's output type (`EachContainer`, always backed
by a fresh list) with `nested=1`; with a key domain, a fresh `EachMapping`
pairing each key with the produced value, again with `nested=1`. -/
def bhBuild (fuel fid : Nat) (ix : Indices) (vals : List PyVal) : EachC :=
  match ix with
  | .irange _ => .mk fid .containerCls (.wseq .klist vals) (.lvl 1)
  | .ikeys ks =>
      let r := dictOfZip fuel (ks.zip vals)
      .mk fid .mapCls (.wmap r.1 r.2) (.lvl 1)

def bhCall (fuel fid : Nat) (B : BH2) (vals : List PyVal) : EachC :=
  bhBuild fuel fid B.indices vals

structure BH1 where
  s0 : PyVal
  E : EachC
  n : Nat
  indices : Indices

def mkBH1 (E : EachC) : BH1 :=
  let s0 : PyVal := .veach E
  let model := if nonBroadcastable s0 then s0 else s0
  let n := lenC model
  let indices :=
    if isMapV model && (lenC s0 == 1 || isMapV s0)
    then Indices.ikeys (mapKeysOf model)
    else Indices.irange n
  ⟨s0, E, n, indices⟩

-- === distributed binary / unary operators ===

/-- The shared shape of every binary dunder: build the handler, iterate the
aligned pairs applying the per-element operation, and package the results
with the result builder. -/
def eachBinRun (elemOp : PyVal → PyVal → Except Err PyVal) (matchFirst : Bool)
    (fuel fid : Nat) (E : EachC) (other : PyVal) : Except Err EachC := do
  let B := mkBH2 E other matchFirst
  let ps ← bh2Pairs fuel B
  let vals ← exMap (fun p => elemOp p.1 p.2) ps
  .ok (bhCall fuel fid B vals)

def eachUnRun (elemOp : PyVal → Except Err PyVal)
    (fuel fid : Nat) (E : EachC) : Except Err EachC := do
  let B := mkBH1 E
  let vs ← bti fuel B.s0 B.n B.indices
  let vals ← exMap elemOp vs
  .ok (bhBuild fuel fid B.indices vals)

/-- Python `+` on values: each-wrappers distribute (`__add__`, or `__radd__`
when only the right operand is a wrapper, which swaps the element order);
ints add, strings and lists concatenate, anything else raises TypeError.
Containers produced while distributing a nested element get object id 0. -/
def pyAdd : Nat → PyVal → PyVal → Except Err PyVal
  | f + 1, .veach e, o => (eachBinRun (pyAdd f) false f 0 e o).map .veach
  | f + 1, x, .veach e => (eachBinRun (fun s o => pyAdd f o s) false f 0 e x).map .veach
  | 0, .veach _, _ => .error .noFuel
  | 0, _, .veach _ => .error .noFuel
  | _, a, b =>
      match intish a, intish b with
      | some i, some j => .ok (.vint (i + j))
      | _, _ =>
          match a, b with
          | .vstr s, .vstr t => .ok (.vstr (s ++ t))
          | .vlist s, .vlist t => .ok (.vlist (s ++ t))
          | _, _ => .error .typeErr

/-- `EachContainer.__add__`. -/
def eachAdd (fuel fid : Nat) (E : EachC) (other : PyVal) : Except Err EachC :=
  eachBinRun (pyAdd fuel) false fuel fid E other

/-- Python comparison on values: a left each-wrapper distributes the
comparison; a right each-wrapper handles the reflected form (with the
operator swapped: `x > E` becomes `E.__lt__(x)`, whose elements compute
`s < x`). -/
def pyCmp : Nat → CmpOp → PyVal → PyVal → Except Err PyVal
  | f + 1, op, .veach e, o => (eachBinRun (pyCmp f op) false f 0 e o).map .veach
  | f + 1, op, x, .veach e => (eachBinRun (pyCmp f (cmpSwap op)) false f 0 e x).map .veach
  | 0, _, .veach _, _ => .error .noFuel
  | 0, _, _, .veach _ => .error .noFuel
  | _, op, a, b =>
      match intish a, intish b with
      | some i, some j => .ok (.vbool (cmpIntB op i j))
      | _, _ =>
          match a, b with
          | .vstr s, .vstr t => .ok (.vbool (cmpStrB op s t))
          | _, _ => .error .typeErr

/-- `EachContainer.__gt__`. -/
def eachGt (fuel fid : Nat) (E : EachC) (other : PyVal) : Except Err EachC :=
  eachBinRun (pyCmp fuel .cgt) false fuel fid E other

/-- Python unary `-` on values; an each-wrapper distributes `__neg__`. -/
def pyNegV : Nat → PyVal → Except Err PyVal
  | f + 1, .veach e => (eachUnRun (pyNegV f) f 0 e).map .veach
  | 0, .veach _ => .error .noFuel
  | _, v =>
      match intish v with
      | some i => .ok (.vint (-i))
      | none => .error .typeErr

/-- `EachContainer.__neg__`. -/
def eachNeg (fuel fid : Nat) (E : EachC) : Except Err EachC :=
  eachUnRun (pyNegV fuel) fuel fid E

-- === membership tests (`in`, contains, is_in) ===

/-- Python `item in container`: substring test for strings, membership among
list members, among dict keys for raw dicts; `EachContainer.__contains__`
checks membership in the wrapped collection (keys, for a dict backing) while
`EachMapping.__contains__` checks membership among the dict's *values*. -/
def pyIn (fuel : Nat) (item container : PyVal) : Except Err Bool :=
  match container with
  | .vstr t =>
      match item with
      | .vstr u => .ok (substrB u t)
      | _ => .error .typeErr
  | .vlist l => .ok (l.any (beqValF fuel item))
  | .vdict ks _ => .ok (ks.any (beqValF fuel item))
  | .veach c =>
      match c.cls with
      | .containerCls =>
          match c.whole with
          | .wseq _ mem => .ok (mem.any (beqValF fuel item))
          | .wmap ks _ => .ok (ks.any (beqValF fuel item))
      | .mapCls =>
          match c.whole with
          | .wmap _ vs => .ok (vs.any (beqValF fuel item))
          | .wseq _ _ => .error .attributeErr
  | _ => .error .typeErr

/-- The shared preprocessing and handler run of `contains`/`is_in`: a single
iterable non-string argument is unpacked and aligned with `self`; otherwise
the argument tuple itself is the second source. -/
def membershipRun (elemOp : PyVal → PyVal → Except Err PyVal) (fuel fid : Nat)
    (E : EachC) (args : List PyVal) : Except Err EachC := do
  let items := match args with
    | [a] => if isIterableV a && !(isStrV a) then a else .vlist args
    | _ => .vlist args
  let B := mkBH2 E items false
  let ps ← bh2Pairs fuel B
  let vals ← exMap (fun p => elemOp p.1 p.2) ps
  .ok (bhCall fuel fid B vals)

/-- The per-element body of `contains` (flag `true`) and `is_in` (flag
`false`).  `contains` pairs `(s, i)` and computes `s.contains(i)` when `s` is
an each-wrapper, `i.is_in(s)` when `i` is, else `i in s`; `is_in` pairs
`(s, c)` and computes `s.is_in(c)`, `c.contains(s)`, or `s in c`. -/
def containsElem : Nat → Bool → PyVal → PyVal → Except Err PyVal
  | f + 1, true, .veach s, i => (membershipRun (containsElem f true) f 0 s [i]).map .veach
  | f + 1, true, s, .veach i => (membershipRun (containsElem f false) f 0 i [s]).map .veach
  | f + 1, false, .veach s, c => (membershipRun (containsElem f false) f 0 s [c]).map .veach
  | f + 1, false, s, .veach c => (membershipRun (containsElem f true) f 0 c [s]).map .veach
  | 0, _, .veach _, _ => .error .noFuel
  | 0, _, _, .veach _ => .error .noFuel
  | f, true, s, i => (pyIn f i s).map .vbool
  | f, false, s, c => (pyIn f s c).map .vbool

/-- `EachContainer.contains(*items)`. -/
def eachContains (fuel fid : Nat) (E : EachC) (args : List PyVal) : Except Err EachC :=
  membershipRun (containsElem fuel true) fuel fid E args

/-- `EachContainer.is_in(*containers)`. -/
def eachIsIn (fuel fid : Nat) (E : EachC) (args : List PyVal) : Except Err EachC :=
  membershipRun (containsElem fuel false) fuel fid E args

-- === distributed attribute write (`EachContainer.__setattr__`) ===

/-- The loop of `__setattr__`: align `(self, value)` with `match_first=True`
and run `setattr(member, attr, v)` on every aligned pair.  The first failing
member assignment aborts the whole operation.  Mutation of the member objects
themselves is not tracked by this heapless model (no theorem below depends on
it); what is modelled is which error, if any, the loop raises. -/
def setattrRun (elemOp : PyVal → PyVal → Except Err PyVal) (fuel : Nat)
    (E : EachC) (value : PyVal) : Except Err EachC := do
  let B := mkBH2 E value true
  let ps ← bh2Pairs fuel B
  let _ ← exMap (fun p => elemOp p.1 p.2) ps
  .ok E

/-- `setattr(m, attr, v)` on a member: scalars, strings, lists and dicts have
no settable attributes (AttributeError); an each-wrapper member routes the
assignment through `EachContainer.__setattr__`, distributing it further. -/
def pySetattrV : Nat → String → PyVal → PyVal → Except Err PyVal
  | f + 1, attr, .veach m, v => (setattrRun (pySetattrV f attr) f m v).map .veach
  | 0, _, .veach _, _ => .error .noFuel
  | _, _, _, _ => .error .attributeErr

/-- `E.attr = value` on an each-container. -/
def eachSetattr (fuel : Nat) (E : EachC) (attr : String) (value : PyVal) : Except Err EachC :=
  setattrRun (pySetattrV fuel attr) fuel E value

-- === in-place consumption (`BroadcastHandler.in_place`) ===

def setLoop (fuel : Nat) : Whole → List (PyVal × PyVal) → Except Err Whole
  | w, [] => .ok w
  | w, (k, v) :: rest => do
      let w2 ← pySetWholeKey fuel w k v
      setLoop fuel w2 rest

/-- `B.in_place(it)`: when the wrapped collection supports item assignment,
overwrite each aligned slot in place and return the first source itself
(same object id, same class and nesting, updated collection); otherwise the
source executes `E.whole = E._each_output_type(it)` — an assignment that is
intercepted by `EachContainer.__setattr__` and therefore *distributed over
the members* instead of rebinding `whole`. -/
def bhInPlace (fuel : Nat) (B : BH2) (vals : List PyVal) : Except Err EachC :=
  if wholeSetitemable B.E.whole then do
    let w ← setLoop fuel B.E.whole ((indexList B.indices).zip vals)
    .ok (.mk B.E.oid B.E.cls w B.E.nested)
  else
    let newC : EachC := .mk 0 .containerCls (.wseq .klist vals) (.lvl 1)
    eachSetattr fuel B.E "whole" (.veach newC)

def eachBinInPlace (elemOp : PyVal → PyVal → Except Err PyVal)
    (fuel : Nat) (E : EachC) (other : PyVal) : Except Err EachC := do
  let B := mkBH2 E other true
  let ps ← bh2Pairs fuel B
  let vals ← exMap (fun p => elemOp p.1 p.2) ps
  bhInPlace fuel B vals

/-- `EachContainer.__iadd__` (`E += other`). -/
def eachIAdd (fuel : Nat) (E : EachC) (other : PyVal) : Except Err EachC :=
  eachBinInPlace (pyAdd fuel) fuel E other

-- === the write path of the compound indexing engine ===

/-- `zip(domain, repeat_if_singular(new_value))`: a scalar or string value is
repeated for every key; an iterable value yielding no element produces no
writes, a single element is repeated, and two or more elements are consumed
one per key with `zip` stopping at the shorter side (so a value iterator that
is exhausted early silently truncates the write). -/
def pairKeysVals (fuel : Nat) (keys : List PyVal) (v : PyVal) : Except Err (List (PyVal × PyVal)) :=
  if !(isIterableV v) || isStrV v then .ok (keys.map (fun k => (k, v)))
  else do
    let elems ← elemsOfIter fuel v
    match elems with
    | [] => .ok []
    | [x] => .ok (keys.map (fun k => (k, x)))
    | xs => .ok (keys.zip xs)

def remkWhole (E : EachC) (w : Whole) : EachC :=
  .mk E.oid E.cls w E.nested

def writeDomain (fuel : Nat) (E : EachC) (dom : List PyVal) (v : PyVal) : Except Err EachC := do
  let ps ← pairKeysVals fuel dom v
  let w ← setLoop fuel E.whole ps
  .ok (remkWhole E w)

/-- The `{key for key in self.whole.keys() if start <= key < stop}` filter of
the keyed slice-assignment (the source builds a set; this model keeps the
keys in dict order). -/
def filterKeysRange (sl : PySlice) : List PyVal → Except Err (List PyVal)
  | [] => .ok []
  | k :: ks => do
      let keep ← (do
        let c1 ← match sl.start with
          | none => pure true
          | some b => cmpScalarB .cle b k
        if c1 then
          match sl.stop with
          | none => pure true
          | some b => cmpScalarB .clt k b
        else pure false)
      let rest ← filterKeysRange sl ks
      .ok (if keep then k :: rest else rest)

/-- Native `list[slice] = elems`: a unit step splices the new elements over
the selected range (inserting when the range is empty); an extended step
requires the element count to match the selected positions. -/
def listSliceAssign (mem : List PyVal) (sl : PySlice) (elems : List PyVal) :
    Except Err (List PyVal) := do
  let sto ← sliceCompInt sl.start
  let spo ← sliceCompInt sl.stop
  let stpo ← sliceCompInt sl.step
  let step := stpo.getD 1
  if step == 0 then .error .valueErr
  else if step == 1 then
    let n : Int := mem.length
    let st := sliceNorm n step 0 sto
    let sp := sliceNorm n step n spo
    let sp2 := max st sp
    .ok (mem.take st.toNat ++ elems ++ mem.drop sp2.toNat)
  else do
    let ps ← pySlicePositions mem.length sl
    if ps.length == elems.length then
      .ok ((ps.zip elems).foldl (fun m pv => m.set pv.1 pv.2) mem)
    else .error .valueErr

def wholeSliceAssign (w : Whole) (sl : PySlice) (elems : List PyVal) : Except Err Whole :=
  match w with
  | .wseq .klist mem => (listSliceAssign mem sl elems).map (fun l => .wseq .klist l)
  | .wseq _ _ => .error .typeErr
  | .wmap _ _ => .error .typeErr

def listEnumAux (i : Nat) : List PyVal → List (Nat × PyVal)
  | [] => []
  | x :: xs => (i, x) :: listEnumAux (i + 1) xs

/-- `EachContainer.__setitem__` for a single (non-tuple) index.  Branch order
follows the source: mapping index (mask keys or remap values), iterable index
(mask positions or plain index list), keyed slice, positional slice with a
scalar value (which executes `range(item.indices(n))` — `range` applied to a
tuple — and therefore raises TypeError), and finally the native
`self.whole[item] = new_value`. -/
def eachSetD (fuel : Nat) (E : EachC) (item : Ix) (v : PyVal) : Except Err EachC :=
  match item with
  | .ival m =>
      if isMapV m then do
        let kv ← mapKVOf m
        let dom :=
          if kv.2.all isBoolLit
          then ((kv.1.zip kv.2).filter (fun p => isTrueLit p.2)).map (fun p => p.1)
          else kv.2
        writeDomain fuel E dom v
      else if isIterableV m && !(isStrV m) then do
        let elems ← elemsOfIter fuel m
        let dom :=
          if lenC m == lenWhole E.whole && elems.all isBoolLit
          then ((listEnumAux 0 elems).filter (fun p => isTrueLit p.2)).map
            (fun p => PyVal.vint p.1)
          else elems
        writeDomain fuel E dom v
      else do
        let w ← pySetWholeKey fuel E.whole m v
        .ok (remkWhole E w)
  | .islice sl =>
      if E.cls == .mapCls then
        match sl with
        | ⟨none, none, none⟩ => writeDomain fuel E (wholeKeys E.whole) v
        | _ => do
            let ks ← filterKeysRange sl (wholeKeys E.whole)
            writeDomain fuel E ks v
      else if !(isIterableV v) || isStrV v then .error .typeErr
      else do
        let elems ← elemsOfIter fuel v
        let w ← wholeSliceAssign E.whole sl elems
        .ok (remkWhole E w)

-- === helper lemmas: Except combinators ===

theorem exMap_ok_of_forall {α β : Type} {l : List α} {f : α → Except Err β} {g : α → β}
    (h : ∀ x ∈ l, f x = .ok (g x)) : exMap f l = .ok (l.map g) := by
  induction l with
  | nil => rfl
  | cons x xs ih =>
      have hx := h x (by simp)
      have hrest := ih (fun y hy => h y (by simp [hy]))
      simp [exMap, hx, hrest, Bind.bind, Except.bind]

theorem exMap_map {α β γ : Type} (f : β → Except Err γ) (g : α → β) (l : List α) :
    exMap f (l.map g) = exMap (fun x => f (g x)) l := by
  induction l with
  | nil => rfl
  | cons x xs ih => simp [exMap, ih]

-- === helper lemmas: sequential slot writes ===

def setFold {α : Type} (mem : List α) (ws : List (Nat × α)) : List α :=
  ws.foldl (fun m w => m.set w.1 w.2) mem

theorem setFold_cons {α : Type} (mem : List α) (w : Nat × α) (ws : List (Nat × α)) :
    setFold mem (w :: ws) = setFold (mem.set w.1 w.2) ws := rfl

theorem setFold_length {α : Type} (ws : List (Nat × α)) (mem : List α) :
    (setFold mem ws).length = mem.length := by
  induction ws generalizing mem with
  | nil => rfl
  | cons w ws ih => simp [setFold_cons, ih, List.length_set]

theorem setFold_getElem?_notin {α : Type} (ws : List (Nat × α)) (mem : List α) (j : Nat)
    (hj : j ∉ ws.map Prod.fst) : (setFold mem ws)[j]? = mem[j]? := by
  induction ws generalizing mem with
  | nil => rfl
  | cons w ws ih =>
      have h1 : w.1 ≠ j := by
        intro hc; exact hj (by simp [← hc])
      have h2 : j ∉ ws.map Prod.fst := by
        intro hc; exact hj (by simp [hc])
      rw [setFold_cons, ih _ h2, List.getElem?_set_ne h1]

theorem setFold_getElem?_written {α : Type} (ws : List (Nat × α)) (mem : List α)
    (hnd : (ws.map Prod.fst).Nodup) (hlt : ∀ w ∈ ws, w.1 < mem.length)
    (p : Nat) (hp : p < ws.length) :
    (setFold mem ws)[(ws.get ⟨p, hp⟩).1]? = some (ws.get ⟨p, hp⟩).2 := by
  induction ws generalizing mem p with
  | nil => exact absurd hp (by simp)
  | cons w ws ih =>
      rw [List.map_cons] at hnd
      have hnotin : w.1 ∉ ws.map Prod.fst := (List.nodup_cons.mp hnd).1
      have hnd2 : (ws.map Prod.fst).Nodup := (List.nodup_cons.mp hnd).2
      rw [setFold_cons]
      match p with
      | 0 =>
          show (setFold (mem.set w.1 w.2) ws)[w.1]? = some w.2
          rw [setFold_getElem?_notin ws _ _ hnotin]
          exact List.getElem?_set_self (by simpa using hlt w (by simp))
      | p + 1 =>
          have hlt2 : ∀ x ∈ ws, x.1 < (mem.set w.1 w.2).length := by
            intro x hx; simpa [List.length_set] using hlt x (by simp [hx])
          exact ih (mem.set w.1 w.2) hnd2 hlt2 p (by simpa using Nat.lt_of_succ_lt_succ hp)

-- === helper lemmas: flat containers ===

/-- A value that is not an each-wrapper (a "flat" member). -/
def noEach : PyVal → Bool
  | .veach _ => false
  | _ => true

theorem eachWrap_vint (ns : NestSpec) (i : Int) : eachWrap ns (.vint i) = .ok (.vint i) := rfl

theorem flatten_map_singleton {α : Type} (l : List α) :
    (l.map (fun a => [a])).flatten = l := by
  induction l with
  | nil => rfl
  | cons x xs ih => simp [ih]

theorem valuesEach_ints (oid : Nat) (kind : SeqKind) (ns : NestSpec) (xs : List Int) :
    valuesEach (.mk oid .containerCls (.wseq kind (xs.map .vint)) ns) = .ok (xs.map .vint) := by
  unfold valuesEach
  simp only [EachC.cls, EachC.whole, EachC.nested, iterWhole]
  by_cases h : nestWrapMore ns
  · rw [if_pos h, exMap_map]
    exact exMap_ok_of_forall (fun x _ => rfl)
  · rw [if_neg h]

theorem valuesEach_lvl1 (oid : Nat) (kind : SeqKind) (mem : List PyVal) :
    valuesEach (.mk oid .containerCls (.wseq kind mem) (.lvl 1)) = .ok mem := by
  unfold valuesEach
  simp only [EachC.cls, EachC.whole, EachC.nested, iterWhole]
  rw [if_neg (by decide)]

theorem iterEach_flat (f : Nat) (E : EachC) (vs : List PyVal)
    (hval : valuesEach E = .ok vs) (hflat : ∀ v ∈ vs, noEach v = true) :
    iterEach (f + 1) E = .ok vs := by
  unfold iterEach
  rw [hval]
  have h2 : exMap (fun v => match v with | .veach e2 => iterEach f e2 | w => .ok [w]) vs
      = .ok (vs.map (fun v => [v])) := by
    refine exMap_ok_of_forall (fun x hx => ?_)
    have := hflat x hx
    cases x <;> simp_all [noEach]
  simp [Bind.bind, Except.bind, h2, flatten_map_singleton]

theorem firstIter_flat (f : Nat) (E : EachC) (v : PyVal) (vs : List PyVal)
    (hval : valuesEach E = .ok (v :: vs)) (hflat : ∀ x ∈ v :: vs, noEach x = true) :
    firstIter (f + 1) (.veach E) = .ok v := by
  have h := iterEach_flat f E (v :: vs) hval hflat
  simp [firstIter, h, Bind.bind, Except.bind]

theorem pyAdd_int (fuel : Nat) (a b : Int) :
    pyAdd fuel (.vint a) (.vint b) = .ok (.vint (a + b)) := by
  cases fuel <;> rfl

theorem zip_replicate_self_right {α β : Type} (l : List α) (b : β) (n : Nat)
    (h : l.length ≤ n) : l.zip (List.replicate n b) = l.map (fun x => (x, b)) := by
  induction l generalizing n with
  | nil => rfl
  | cons x xs ih =>
      match n with
      | 0 => exact absurd h (by simp)
      | n + 1 => simp [List.replicate, ih n (by simpa using h)]

theorem zip_replicate_self_left {α β : Type} (l : List α) (b : β) (n : Nat)
    (h : l.length ≤ n) : (List.replicate n b).zip l = l.map (fun x => (b, x)) := by
  have := congrArg (List.map Prod.swap) (zip_replicate_self_right l b n h)
  rw [List.zip_swap] at this
  rw [this, List.map_map]
  rfl

-- === claim theorems ===

/-- C7: for every distributed container E, indexing with the full identity
slice and no range selectors, `E[:]`, returns the container E itself
unchanged — the same object (same id, class, collection and nesting), via the
fast path that performs no copying or re-wrapping. -/
theorem c7_identity_slice_returns_self (fuel fid : Nat) (E : EachC) :
    eachGetD fuel fid E (.islice ⟨none, none, none⟩) = .ok (.cont E) := rfl

/-- C5: for the keyed containers `A = {x:1, y:2}` and `B = {x:10, y:20}`, the
distributed sum `A + B` is a keyed container with exactly the keys x and y,
mapping x to 11 and y to 22. -/
theorem c5_keyed_alignment_example (fuel fid : Nat) :
    eachAdd fuel fid
      (.mk 1 .mapCls (.wmap [.vstr "x", .vstr "y"] [.vint 1, .vint 2]) (.lvl 1))
      (.veach (.mk 2 .mapCls (.wmap [.vstr "x", .vstr "y"] [.vint 10, .vint 20]) (.lvl 1)))
    = .ok (.mk fid .mapCls (.wmap [.vstr "x", .vstr "y"] [.vint 11, .vint 22]) (.lvl 1)) := by
  cases fuel <;> rfl

/-- C3: the claim says a compound assignment on a container whose underlying
collection does not support item assignment replaces the whole collection and
returns the container; in the code, `BroadcastHandler.in_place` executes
`E.whole = E._each_output_type(it)`, which is intercepted by
`EachContainer.__setattr__` and distributed over the members, so
`E = each((1, 2, 3)); E += 1` raises AttributeError (ints have no settable
attributes) instead of replacing the tuple.  This theorem evaluates the code
at that failing input. -/
theorem c3_tuple_iadd_raises_attribute_error :
    eachIAdd 2 (.mk 1 .containerCls (.wseq .ktupl [.vint 1, .vint 2, .vint 3]) (.lvl 1))
      (.vint 1) = .error .attributeErr := rfl

/-- C4: the claim says slice approximation on a positional container without
native slicing normalizes a negative stop to `stop + n`; the code (line 708)
instead adds the length to `start` and leaves `stop` negative, so
`each(deque([1,2,3,4,5]))[1:-1]` — which the claim says selects the members
at positions 1..3, i.e. (2,3,4) — raises ValueError from `islice`.  The
second conjunct shows the adjacent slice `[-3:4]` (negative start,
non-negative stop) does select positions 2..3 as the claim describes, so the
failure is specific to the mishandled stop bound. -/
theorem c4_negative_stop_slice_raises :
    (eachGetD 2 9 (.mk 1 .containerCls
        (.wseq .kdeque [.vint 1, .vint 2, .vint 3, .vint 4, .vint 5]) (.lvl 1))
        (.islice ⟨some (.vint 1), some (.vint (-1)), none⟩) = .error .valueErr)
  ∧ (eachGetD 2 9 (.mk 1 .containerCls
        (.wseq .kdeque [.vint 1, .vint 2, .vint 3, .vint 4, .vint 5]) (.lvl 1))
        (.islice ⟨some (.vint (-3)), some (.vint 4), none⟩)
      = .ok (.cont (.mk 9 .containerCls (.wseq .klist [.vint 3, .vint 4]) (.lvl 1)))) :=
  ⟨rfl, rfl⟩

/-- C1 counterexample: the claim says aligning two non-broadcastable sources
of lengths 2 and 3 raises a length-mismatch error *in either operand order*;
but `each(1, 2) + (10, 20, 30)` — shorter non-broadcastable source first —
succeeds, aligning on the first source's length 2 and silently ignoring the
extra element of the longer operand. -/
theorem c1_shorter_model_first_succeeds :
    eachAdd 2 9 (.mk 1 .containerCls (.wseq .klist [.vint 1, .vint 2]) (.lvl 1))
      (.vlist [.vint 10, .vint 20, .vint 30])
    = .ok (.mk 9 .containerCls (.wseq .klist [.vint 11, .vint 22]) (.lvl 1)) := rfl

/-- C2 counterexample: the claim says a write whose selector resolves to k
keys and whose non-singular iterable value yields fewer than k elements
raises a broadcast-length error; but `E[[0, 1, 2]] = [7, 8]` on
`E = each([10, 20, 30])` succeeds, silently writing only the first two
selected slots and leaving the third unchanged. -/
theorem c2_exhausted_value_silently_stops :
    eachSetD 2 (.mk 1 .containerCls (.wseq .klist [.vint 10, .vint 20, .vint 30]) (.lvl 1))
      (.ival (.vlist [.vint 0, .vint 1, .vint 2])) (.vlist [.vint 7, .vint 8])
    = .ok (.mk 1 .containerCls (.wseq .klist [.vint 7, .vint 8, .vint 30]) (.lvl 1)) := rfl

-- === helper lemmas: broadcast iteration on flat sequence sources ===

theorem lenC_veach_seq (oid : Nat) (c : ECls) (kind : SeqKind) (ns : NestSpec)
    (mem : List PyVal) : lenC (.veach (.mk oid c (.wseq kind mem) ns)) = mem.length := rfl

theorem isMapV_veach_container (oid : Nat) (kind : SeqKind) (ns : NestSpec)
    (mem : List PyVal) : isMapV (.veach (.mk oid .containerCls (.wseq kind mem) ns)) = false := rfl

/-- A flat container-class sequence source of length other than 1, aligned on
a positional domain no longer than itself, yields its member list. -/
theorem bti_veach_flat (fuel oid : Nat) (kind : SeqKind) (ns : NestSpec) (mem : List PyVal)
    (n : Nat) (hval : valuesEach (.mk oid .containerCls (.wseq kind mem) ns) = .ok mem)
    (h1 : mem.length ≠ 1) (hn : n ≤ mem.length) :
    bti fuel (.veach (.mk oid .containerCls (.wseq kind mem) ns)) n (.irange n)
      = .ok mem := by
  unfold bti
  rw [isMapV_veach_container, lenC_veach_seq]
  rw [if_neg (by simp)]
  rw [if_neg (by simpa using h1)]
  show (if mem.length < n then Except.error Err.valueErr
        else valuesEach (EachC.mk oid .containerCls (.wseq kind mem) ns)) = Except.ok mem
  rw [if_neg (by omega)]
  exact hval

/-- A flat container-class sequence source of length 1 broadcasts its single
member to every position or key of the domain. -/
theorem bti_veach_single (fuel oid : Nat) (kind : SeqKind) (ns : NestSpec) (v : PyVal)
    (n : Nat) (ix : Indices)
    (hval : valuesEach (.mk oid .containerCls (.wseq kind [v]) ns) = .ok [v])
    (hflat : noEach v = true) :
    bti (fuel + 1) (.veach (.mk oid .containerCls (.wseq kind [v]) ns)) n ix
      = .ok (List.replicate n v) := by
  unfold bti
  rw [isMapV_veach_container, lenC_veach_seq]
  simp only [Bool.false_eq_true, if_false, List.length_singleton, if_pos rfl]
  rw [firstIter_flat fuel _ v [] hval (by intro x hx; simp at hx; simpa [hx])]
  rfl

/-- A raw list source of length other than 1 on a positional domain no longer
than itself is iterated as is. -/
theorem bti_vlist_long (fuel : Nat) (l : List PyVal) (n : Nat)
    (h1 : l.length ≠ 1) (hn : n ≤ l.length) :
    bti fuel (.vlist l) n (.irange n) = .ok l := by
  unfold bti
  have hm : isMapV (.vlist l) = false := rfl
  rw [hm]
  simp only [Bool.false_eq_true, if_false, lenC]
  rw [if_neg (by simpa using h1), if_neg (by omega)]
  rfl

/-- A raw list source of length other than 1 that is shorter than the
positional domain raises the length-mismatch ValueError. -/
theorem bti_vlist_short (fuel : Nat) (l : List PyVal) (n : Nat)
    (h1 : l.length ≠ 1) (hn : l.length < n) :
    bti fuel (.vlist l) n (.irange n) = .error .valueErr := by
  unfold bti
  have hm : isMapV (.vlist l) = false := rfl
  rw [hm]
  simp only [Bool.false_eq_true, if_false, lenC]
  rw [if_neg (by simpa using h1), if_pos (by omega)]

/-- C1: the claim says that aligning two non-broadcastable sequence sources of
differing lengths raises a length-mismatch error in either operand order.  In
the code the error is one-sided: the first non-broadcastable source is the
model, and a later non-broadcastable source raises
`ValueError` (the spec's BroadcastLengthMismatch) exactly when it is
*shorter* than the model; when it is longer, the operation succeeds on the
model's length and the extra elements are ignored (amended claim, forced by
`c1_shorter_model_first_succeeds`). -/
theorem c1_amended_mismatch_only_when_later_shorter (fuel fid oid : Nat) (kind : SeqKind)
    (ns : NestSpec) (xs ys : List Int) (hx : xs.length ≠ 1) (hy : ys.length ≠ 1) :
    (ys.length < xs.length →
      eachAdd fuel fid (.mk oid .containerCls (.wseq kind (xs.map .vint)) ns)
        (.vlist (ys.map .vint)) = .error .valueErr)
  ∧ (xs.length ≤ ys.length →
      eachAdd fuel fid (.mk oid .containerCls (.wseq kind (xs.map .vint)) ns)
        (.vlist (ys.map .vint))
      = .ok (.mk fid .containerCls
          (.wseq .klist ((xs.zip ys).map (fun p => .vint (p.1 + p.2)))) (.lvl 1))) := by
  have hx2 : (xs.map PyVal.vint).length ≠ 1 := by simpa using hx
  have hy2 : (ys.map PyVal.vint).length ≠ 1 := by simpa using hy
  have hbh : mkBH2 (.mk oid .containerCls (.wseq kind (xs.map .vint)) ns)
      (.vlist (ys.map .vint)) false
      = ⟨.veach (.mk oid .containerCls (.wseq kind (xs.map .vint)) ns),
         .vlist (ys.map .vint),
         .mk oid .containerCls (.wseq kind (xs.map .vint)) ns,
         xs.length, .irange xs.length⟩ := by
    unfold mkBH2 nonBroadcastable
    simp only [as_sized_iterable, isMapV_veach_container, lenC_veach_seq, List.length_map,
      Bool.or_false, Bool.false_eq_true, if_false]
    rw [if_pos (by simp [bne_iff_ne, hx])]
    simp [bne_iff_ne, hx, lenC_veach_seq]
  constructor
  · intro hlt
    unfold eachAdd eachBinRun bh2Pairs
    rw [hbh]
    simp only
    rw [bti_veach_flat fuel oid kind ns (xs.map .vint) xs.length
      (valuesEach_ints oid kind ns xs) hx2 (by simp)]
    rw [bti_vlist_short fuel (ys.map .vint) xs.length hy2 (by simpa using hlt)]
    rfl
  · intro hle
    unfold eachAdd eachBinRun bh2Pairs
    rw [hbh]
    simp only
    rw [bti_veach_flat fuel oid kind ns (xs.map .vint) xs.length
      (valuesEach_ints oid kind ns xs) hx2 (by simp)]
    rw [bti_vlist_long fuel (ys.map .vint) xs.length hy2 (by simpa using hle)]
    simp only [Bind.bind, Except.bind]
    rw [List.zip_map, exMap_map]
    rw [exMap_ok_of_forall (g := fun p => PyVal.vint (p.1 + p.2))
      (fun p _ => pyAdd_int fuel p.1 p.2)]
    rfl

/-- Witness for `c1_amended_mismatch_only_when_later_shorter` at lengths
(3, 2) for the error arm and (2, 3) for the success arm. -/
theorem c1_amended_witness :
    (eachAdd 1 9 (.mk 1 .containerCls (.wseq .klist [.vint 1, .vint 2, .vint 3]) (.lvl 1))
        (.vlist [.vint 10, .vint 20]) = .error .valueErr)
  ∧ (eachAdd 1 9 (.mk 1 .containerCls (.wseq .klist [.vint 1, .vint 2]) (.lvl 1))
        (.vlist [.vint 10, .vint 20, .vint 30])
      = .ok (.mk 9 .containerCls (.wseq .klist [.vint 11, .vint 22]) (.lvl 1))) := by
  constructor
  · exact (c1_amended_mismatch_only_when_later_shorter 1 9 1 .klist (.lvl 1)
      [1, 2, 3] [10, 20] (by decide) (by decide)).1 (by decide)
  · exact (c1_amended_mismatch_only_when_later_shorter 1 9 1 .klist (.lvl 1)
      [1, 2] [10, 20, 30] (by decide) (by decide)).2 (by decide)

-- === helper lemmas: in-place slot writes over a positional domain ===

theorem bti_vlist_single (fuel : Nat) (v : PyVal) (n : Nat) (ix : Indices) :
    bti fuel (.vlist [v]) n ix = .ok (List.replicate n v) := by
  unfold bti
  have hm : isMapV (.vlist [v]) = false := rfl
  rw [hm]
  simp only [Bool.false_eq_true, if_false, lenC, List.length_singleton, if_pos rfl]
  rfl

theorem setLoop_klist_nat (fuel : Nat) (ws : List (Nat × PyVal)) (mem : List PyVal)
    (hw : ∀ w ∈ ws, w.1 < mem.length) :
    setLoop fuel (.wseq .klist mem) (ws.map (fun w => (.vint w.1, w.2)))
      = .ok (.wseq .klist (setFold mem ws)) := by
  induction ws generalizing mem with
  | nil => rfl
  | cons w ws ih =>
      have hlt : w.1 < mem.length := hw w (by simp)
      have hstep : pySetWholeKey fuel (.wseq .klist mem) (.vint w.1) w.2
          = .ok (.wseq .klist (mem.set w.1 w.2)) := by
        unfold pySetWholeKey pySetSeqIdx
        simp only [intish]
        have hneg : ¬ ((w.1 : Int) < 0) := by omega
        simp only [if_neg hneg, Int.toNat_natCast]
        rw [if_pos hlt]
        rfl
      show setLoop fuel (.wseq .klist mem) ((.vint w.1, w.2) :: ws.map (fun w => (.vint w.1, w.2)))
          = .ok (.wseq .klist (setFold mem (w :: ws)))
      unfold setLoop
      rw [hstep]
      show setLoop fuel (.wseq .klist (mem.set w.1 w.2)) (ws.map (fun w => (.vint w.1, w.2)))
          = .ok (.wseq .klist (setFold (mem.set w.1 w.2) ws))
      exact ih (mem.set w.1 w.2) (by intro x hx; simpa [List.length_set] using hw x (by simp [hx]))

theorem zip_map_left_pair {α β γ : Type} (f : α → γ) (l1 : List α) (l2 : List β) :
    (l1.map f).zip l2 = (l1.zip l2).map (fun w => (f w.1, w.2)) := by
  induction l1 generalizing l2 with
  | nil => rfl
  | cons x xs ih =>
      cases l2 with
      | nil => rfl
      | cons y ys => simp [ih]

theorem setFold_range_eq {α : Type} (mem vals : List α) (h : vals.length = mem.length) :
    setFold mem ((List.range mem.length).zip vals) = vals := by
  have hkeys : (((List.range mem.length).zip vals).map Prod.fst) = List.range mem.length :=
    List.map_fst_zip _ _ (by simp [h])
  have hw : ∀ w ∈ (List.range mem.length).zip vals, w.1 < mem.length := by
    intro w hmem
    exact List.mem_range.mp (List.of_mem_zip hmem).1
  have hnd : (((List.range mem.length).zip vals).map Prod.fst).Nodup := by
    rw [hkeys]; exact List.nodup_range _
  apply List.ext_getElem?
  intro j
  by_cases hj : j < mem.length
  · have hp : j < ((List.range mem.length).zip vals).length := by
      simp [List.length_zip, h]; omega
    have hg := setFold_getElem?_written _ mem hnd hw j hp
    have hget : ((List.range mem.length).zip vals).get ⟨j, hp⟩
        = (j, vals.get ⟨j, by omega⟩) := by
      simp [List.get_eq_getElem, List.getElem_zip, List.getElem_range]
    rw [hget] at hg
    simp only at hg
    rw [hg]
    exact (List.getElem?_eq_getElem (by omega)).symm
  · rw [List.getElem?_eq_none
      (by rw [setFold_length]; omega : (setFold mem ((List.range mem.length).zip vals)).length ≤ j)]
    rw [List.getElem?_eq_none (by omega)]

/-- C8: after `x = E; x += 1` on a container whose underlying collection is a
list (supports in-place slot assignment), the result is the very container E
— same object id, class and nesting spec — with only the slots of the
underlying collection overwritten by the element-wise results.  (A fresh
container built by an ordinary operator would instead carry the fresh id and
`nested=1`, as `bhBuild` shows.) -/
theorem c8_in_place_keeps_identity (fuel oid : Nat) (ns : NestSpec) (xs : List Int) (c : Int) :
    eachIAdd (fuel + 1) (.mk oid .containerCls (.wseq .klist (xs.map .vint)) ns) (.vint c)
      = .ok (.mk oid .containerCls (.wseq .klist (xs.map (fun i => .vint (i + c)))) ns) := by
  have hbh : mkBH2 (.mk oid .containerCls (.wseq .klist (xs.map .vint)) ns) (.vint c) true
      = ⟨.veach (.mk oid .containerCls (.wseq .klist (xs.map .vint)) ns),
         .vlist [.vint c],
         .mk oid .containerCls (.wseq .klist (xs.map .vint)) ns,
         xs.length, .irange xs.length⟩ := by
    unfold mkBH2 nonBroadcastable
    simp [as_sized_iterable, isMapV_veach_container, lenC_veach_seq]
  have hbtiself : bti (fuel + 1)
      (.veach (.mk oid .containerCls (.wseq .klist (xs.map .vint)) ns)) xs.length
      (.irange xs.length) = .ok (xs.map .vint) := by
    by_cases h1 : xs.length = 1
    · obtain ⟨x, hx⟩ := List.length_eq_one.mp h1
      subst hx
      simpa using bti_veach_single fuel oid .klist ns (.vint x) 1 (.irange 1)
        (valuesEach_ints oid .klist ns [x]) rfl
    · exact bti_veach_flat (fuel + 1) oid .klist ns (xs.map .vint) xs.length
        (valuesEach_ints oid .klist ns xs) (by simpa using h1) (by simp)
  unfold eachIAdd eachBinInPlace bh2Pairs
  rw [hbh]
  simp only
  rw [hbtiself, bti_vlist_single (fuel + 1) (.vint c) xs.length (.irange xs.length)]
  simp only [Bind.bind, Except.bind]
  rw [zip_replicate_self_right _ _ _ (by simp), exMap_map, exMap_map]
  rw [exMap_ok_of_forall (g := fun i => PyVal.vint (i + c))
    (fun i _ => pyAdd_int (fuel + 1) i c)]
  show bhInPlace (fuel + 1)
      ⟨.veach (.mk oid .containerCls (.wseq .klist (xs.map .vint)) ns), .vlist [.vint c],
       .mk oid .containerCls (.wseq .klist (xs.map .vint)) ns,
       xs.length, .irange xs.length⟩ (xs.map (fun i => .vint (i + c))) = _
  unfold bhInPlace
  dsimp only [EachC.oid, EachC.cls, EachC.whole, EachC.nested, wholeSetitemable]
  rw [if_pos rfl]
  simp only [indexList]
  rw [zip_map_left_pair (fun (i : Nat) => PyVal.vint (i : Int)) (List.range xs.length)
    (xs.map (fun i => PyVal.vint (i + c)))]
  have hlen : (xs.map (fun i => PyVal.vint (i + c))).length
      = (xs.map PyVal.vint).length := by simp
  have hrange : (List.range xs.length) = List.range (xs.map PyVal.vint).length := by simp
  rw [hrange, setLoop_klist_nat (fuel + 1) _ _ (by
    intro w hw
    exact List.mem_range.mp (List.of_mem_zip hw).1)]
  rw [setFold_range_eq _ _ hlen]
  rfl

-- === helper lemmas: truncating writes ===

theorem map_fst_zip_take {α β : Type} (l1 : List α) (l2 : List β) :
    (l1.zip l2).map Prod.fst = l1.take l2.length := by
  induction l1 generalizing l2 with
  | nil => simp
  | cons x xs ih =>
      cases l2 with
      | nil => simp
      | cons y ys => simp [ih]

/-- C2 amended: a write whose index-list selector resolves to k slots and
whose non-singular iterable value yields j < k elements succeeds silently,
writing the first j selected slots in selector order and leaving every other
slot (including the remaining selected ones) unchanged — no error is raised
(forced by `c2_exhausted_value_silently_stops`; the claim said it errors). -/
theorem c2_amended_write_truncates (fuel oid : Nat) (cls : ECls) (ns : NestSpec)
    (mem : List PyVal) (L : List Nat) (vs : List PyVal)
    (hL : ∀ i ∈ L, i < mem.length) (hnd : L.Nodup)
    (h2 : 2 ≤ vs.length) (hk : vs.length ≤ L.length) :
    ∃ mem2, eachSetD fuel (.mk oid cls (.wseq .klist mem) ns)
        (.ival (.vlist (L.map (fun (i : Nat) => PyVal.vint (i : Int))))) (.vlist vs)
      = .ok (.mk oid cls (.wseq .klist mem2) ns)
    ∧ mem2.length = mem.length
    ∧ (∀ p, p < vs.length → mem2.getD (L.getD p 0) (.vint 0) = vs.getD p (.vint 0))
    ∧ (∀ j, j < mem.length → j ∉ L.take vs.length →
        mem2.getD j (.vint 0) = mem.getD j (.vint 0)) := by
  obtain ⟨i0, L1, hLc⟩ : ∃ i0 L1, L = i0 :: L1 := by
    cases L with
    | nil => exact absurd hk (by simp only [List.length_nil]; omega)
    | cons a as_ => exact ⟨a, as_, rfl⟩
  obtain ⟨v0, v1, vs2, hvc⟩ : ∃ v0 v1 vs2, vs = v0 :: v1 :: vs2 := by
    match vs, h2 with
    | a :: b :: rest, _ => exact ⟨a, b, rest, rfl⟩
  refine ⟨setFold mem (L.zip vs), ?_, ?_, ?_, ?_⟩
  · simp only [eachSetD]
    rw [if_neg (show ¬(isMapV (.vlist (L.map (fun (i : Nat) => PyVal.vint (i : Int)))) = true) by
      rw [show isMapV (.vlist (L.map (fun (i : Nat) => PyVal.vint (i : Int)))) = false from rfl]
      simp)]
    rw [if_pos (show (isIterableV (.vlist (L.map (fun (i : Nat) => PyVal.vint (i : Int))))
        && !(isStrV (.vlist (L.map (fun (i : Nat) => PyVal.vint (i : Int)))))) = true from rfl)]
    show (do
      let elems ← elemsOfIter fuel (.vlist (L.map (fun (i : Nat) => PyVal.vint (i : Int))))
      let dom : List PyVal :=
        if lenC (.vlist (L.map (fun (i : Nat) => PyVal.vint (i : Int))))
            == lenWhole (Whole.wseq .klist mem) && elems.all isBoolLit
        then ((listEnumAux 0 elems).filter (fun (p : Nat × PyVal) => isTrueLit p.2)).map
          (fun (p : Nat × PyVal) => PyVal.vint (p.1 : Int))
        else elems
      writeDomain fuel (.mk oid cls (.wseq .klist mem) ns) dom (.vlist vs)) = _
    have helems : elemsOfIter fuel (.vlist (L.map (fun (i : Nat) => PyVal.vint (i : Int))))
        = .ok (L.map (fun (i : Nat) => PyVal.vint (i : Int))) := rfl
    rw [helems]
    simp only [Bind.bind, Except.bind]
    have hmask : (L.map (fun (i : Nat) => PyVal.vint (i : Int))).all isBoolLit = false := by
      rw [hLc]
      simp [isBoolLit]
    rw [hmask]
    simp only [Bool.and_false, Bool.false_eq_true, if_false]
    unfold writeDomain pairKeysVals
    rw [if_neg (show ¬((!(isIterableV (.vlist vs)) || isStrV (.vlist vs)) = true) by
      rw [show (!(isIterableV (.vlist vs)) || isStrV (.vlist vs)) = false from rfl]
      simp)]
    show (do
      let elems ← elemsOfIter fuel (.vlist vs)
      let ps ← (match elems with
        | [] => Except.ok ([] : List (PyVal × PyVal))
        | [x] => Except.ok ((L.map (fun (i : Nat) => PyVal.vint (i : Int))).map (fun k => (k, x)))
        | xs => Except.ok ((L.map (fun (i : Nat) => PyVal.vint (i : Int))).zip xs))
      (do
        let w ← setLoop fuel (EachC.mk oid cls (.wseq .klist mem) ns).whole ps
        Except.ok (remkWhole (.mk oid cls (.wseq .klist mem) ns) w))) = _
    have hvs : elemsOfIter fuel (.vlist vs) = .ok vs := rfl
    rw [hvs]
    simp only [Bind.bind, Except.bind]
    rw [hvc]
    show (do
      let w ← setLoop fuel (EachC.mk oid cls (.wseq .klist mem) ns).whole
        ((L.map (fun (i : Nat) => PyVal.vint (i : Int))).zip (v0 :: v1 :: vs2))
      Except.ok (remkWhole (.mk oid cls (.wseq .klist mem) ns) w)) = _
    rw [zip_map_left_pair (fun (i : Nat) => PyVal.vint (i : Int)) L (v0 :: v1 :: vs2)]
    have hwk : ∀ w ∈ L.zip (v0 :: v1 :: vs2), w.1 < mem.length := by
      intro w hw
      exact hL w.1 (List.of_mem_zip hw).1
    show (do
      let w ← setLoop fuel (.wseq .klist mem)
        ((L.zip (v0 :: v1 :: vs2)).map (fun (w : Nat × PyVal) => (PyVal.vint (w.1 : Int), w.2)))
      Except.ok (remkWhole (.mk oid cls (.wseq .klist mem) ns) w)) = _
    rw [setLoop_klist_nat fuel (L.zip (v0 :: v1 :: vs2)) mem hwk]
    rw [← hvc]
    rfl
  · exact setFold_length _ _
  · intro p hp
    have hpL : p < L.length := by omega
    have hplen : p < (L.zip vs).length := by
      simp [List.length_zip]; omega
    have hnd2 : ((L.zip vs).map Prod.fst).Nodup := by
      rw [map_fst_zip_take]
      exact hnd.sublist (List.take_sublist _ _)
    have hwk : ∀ w ∈ L.zip vs, w.1 < mem.length := by
      intro w hw
      exact hL w.1 (List.of_mem_zip hw).1
    have hg := setFold_getElem?_written (L.zip vs) mem hnd2 hwk p hplen
    have hpair : (L.zip vs).get ⟨p, hplen⟩ = (L.get ⟨p, hpL⟩, vs.get ⟨p, hp⟩) := by
      simp [List.get_eq_getElem, List.getElem_zip]
    rw [hpair] at hg
    simp only at hg
    have hLgd : L.getD p 0 = L.get ⟨p, hpL⟩ := by
      simp [List.getD_eq_getElem?_getD, List.getElem?_eq_getElem hpL, List.get_eq_getElem]
    rw [hLgd]
    rw [List.getD_eq_getElem?_getD, hg]
    simp [List.getD_eq_getElem?_getD, List.getElem?_eq_getElem hp, List.get_eq_getElem]
  · intro j hj hnotin
    have hnotin2 : j ∉ (L.zip vs).map Prod.fst := by
      rw [map_fst_zip_take]
      exact hnotin
    rw [List.getD_eq_getElem?_getD, List.getD_eq_getElem?_getD,
      setFold_getElem?_notin (L.zip vs) mem j hnotin2]

/-- Witness for `c2_amended_write_truncates`: three selected slots, a
two-element value. -/
theorem c2_amended_witness :
    ∃ mem2, eachSetD 1 (.mk 1 .containerCls
        (.wseq .klist [.vint 10, .vint 20, .vint 30]) (.lvl 1))
        (.ival (.vlist (([0, 1, 2] : List Nat).map (fun (i : Nat) => PyVal.vint (i : Int)))))
        (.vlist [.vint 7, .vint 8])
      = .ok (.mk 1 .containerCls (.wseq .klist mem2) (.lvl 1))
    ∧ mem2.length = 3
    ∧ (∀ p, p < 2 → mem2.getD (([0, 1, 2] : List Nat).getD p 0) (.vint 0)
        = [PyVal.vint 7, PyVal.vint 8].getD p (.vint 0))
    ∧ (∀ j, j < 3 → j ∉ ([0, 1, 2] : List Nat).take 2 →
        mem2.getD j (.vint 0)
          = [PyVal.vint 10, PyVal.vint 20, PyVal.vint 30].getD j (.vint 0)) :=
  c2_amended_write_truncates 1 1 .containerCls (.lvl 1)
    [.vint 10, .vint 20, .vint 30] [0, 1, 2] [.vint 7, .vint 8]
    (by decide) (by decide) (by decide) (by decide)

/-- C10: every fresh container built by the broadcast result builder
(`BroadcastHandler.__call__`) has nesting level exactly 1, whatever the
operands' nesting specs: this holds of the builder itself for both index
domains, and consequently of every successful binary (`__add__`), unary
(`__neg__`) and comparison (`__gt__`) operator result. -/
theorem c10_result_builder_nested_one :
    (∀ fuel fid ix vals, (bhBuild fuel fid ix vals).nested = .lvl 1)
  ∧ (∀ fuel fid E other C, eachAdd fuel fid E other = .ok C → C.nested = .lvl 1)
  ∧ (∀ fuel fid E C, eachNeg fuel fid E = .ok C → C.nested = .lvl 1)
  ∧ (∀ fuel fid E other C, eachGt fuel fid E other = .ok C → C.nested = .lvl 1) := by
  have hbuild : ∀ fuel fid ix vals, (bhBuild fuel fid ix vals).nested = .lvl 1 := by
    intro fuel fid ix vals
    cases ix <;> rfl
  have hbin : ∀ (elemOp : PyVal → PyVal → Except Err PyVal) mf fuel fid E other C,
      eachBinRun elemOp mf fuel fid E other = .ok C → C.nested = .lvl 1 := by
    intro elemOp mf fuel fid E other C h
    rw [show eachBinRun elemOp mf fuel fid E other
        = (do
            let ps ← bh2Pairs fuel (mkBH2 E other mf)
            let vals ← exMap (fun p => elemOp p.1 p.2) ps
            Except.ok (bhCall fuel fid (mkBH2 E other mf) vals)) from rfl] at h
    cases hps : bh2Pairs fuel (mkBH2 E other mf) with
    | error e => rw [hps] at h; simp [Bind.bind, Except.bind] at h
    | ok ps =>
        rw [hps] at h
        simp only [Bind.bind, Except.bind] at h
        cases hv : exMap (fun p => elemOp p.1 p.2) ps with
        | error e => rw [hv] at h; simp at h
        | ok vals =>
            rw [hv] at h
            simp only [Except.ok.injEq] at h
            rw [← h]
            exact hbuild fuel fid _ vals
  refine ⟨hbuild, ?_, ?_, ?_⟩
  · intro fuel fid E other C h
    exact hbin (pyAdd fuel) false fuel fid E other C h
  · intro fuel fid E C h
    rw [show eachNeg fuel fid E
        = (do
            let vs ← bti fuel (mkBH1 E).s0 (mkBH1 E).n (mkBH1 E).indices
            let vals ← exMap (pyNegV fuel) vs
            Except.ok (bhBuild fuel fid (mkBH1 E).indices vals)) from rfl] at h
    cases hvs : bti fuel (mkBH1 E).s0 (mkBH1 E).n (mkBH1 E).indices with
    | error e => rw [hvs] at h; simp [Bind.bind, Except.bind] at h
    | ok vs =>
        rw [hvs] at h
        simp only [Bind.bind, Except.bind] at h
        cases hv : exMap (pyNegV fuel) vs with
        | error e => rw [hv] at h; simp at h
        | ok vals =>
            rw [hv] at h
            simp only [Except.ok.injEq] at h
            rw [← h]
            exact hbuild fuel fid _ vals
  · intro fuel fid E other C h
    exact hbin (pyCmp fuel .cgt) false fuel fid E other C h

/-- Witness for `c10_result_builder_nested_one`: operands with nesting specs
7, infinity, and the `next` sentinel all produce results with nesting 1. -/
theorem c10_nested_one_witness :
    ((EachC.mk 9 .containerCls (.wseq .klist [.vint 3, .vint 4]) (.lvl 1)).nested = .lvl 1)
  ∧ ((EachC.mk 8 .containerCls (.wseq .klist [.vint (-1), .vint (-2)]) (.lvl 1)).nested = .lvl 1)
  ∧ ((EachC.mk 7 .containerCls (.wseq .klist [.vbool false, .vbool true]) (.lvl 1)).nested = .lvl 1) :=
  ⟨c10_result_builder_nested_one.2.1 1 9
      (.mk 1 .containerCls (.wseq .klist [.vint 1, .vint 2]) (.lvl 7)) (.vint 2)
      (.mk 9 .containerCls (.wseq .klist [.vint 3, .vint 4]) (.lvl 1)) rfl,
   c10_result_builder_nested_one.2.2.1 1 8
      (.mk 1 .containerCls (.wseq .klist [.vint 1, .vint 2]) .inf)
      (.mk 8 .containerCls (.wseq .klist [.vint (-1), .vint (-2)]) (.lvl 1)) rfl,
   c10_result_builder_nested_one.2.2.2 1 7
      (.mk 1 .containerCls (.wseq .klist [.vint 1, .vint 2]) .nnext) (.vint 1)
      (.mk 7 .containerCls (.wseq .klist [.vbool false, .vbool true]) (.lvl 1)) rfl⟩

-- === helper lemmas: index-list selection ===

/-- The inverse of a permutation given as an index list: `argsort L` at
position `j` is the position of the value `j` inside `L` (for `L` a
permutation of `0..n-1` this is numpy-style argsort, the inverse
permutation used in the spec's round-trip law). -/
def argsort (L : List Nat) : List Nat :=
  (List.range L.length).map (fun j => L.indexOf j)

theorem pyGetSeqIdx_nat (mem : List PyVal) (i : Nat) (h : i < mem.length) :
    pyGetSeqIdx mem (.vint (i : Int)) = .ok (mem.getD i (.vint 0)) := by
  unfold pyGetSeqIdx
  simp only [intish]
  have hneg : ¬ ((i : Int) < 0) := by omega
  simp only [if_neg hneg, Int.toNat_natCast]
  have hsome : mem.get? i = some (mem.getD i (.vint 0)) := by
    rw [List.get?_eq_getElem?, List.getElem?_eq_getElem h, List.getD_eq_getElem?_getD,
      List.getElem?_eq_getElem h]
    rfl
  rw [hsome]

/-- Selecting with a non-empty list of valid positions re-keys the container:
the result is a fresh positional (list-backed) container whose position `p`
holds the member at old position `L[p]`, with the nesting spec propagated. -/
theorem eachGetD_index_list (fuel fid oid : Nat) (kind : SeqKind) (ns : NestSpec)
    (mem : List PyVal) (L : List Nat)
    (hL : ∀ i ∈ L, i < mem.length) (hne : L ≠ []) :
    eachGetD fuel fid (.mk oid .containerCls (.wseq kind mem) ns)
      (.ival (.vlist (L.map (fun (i : Nat) => PyVal.vint (i : Int)))))
    = .ok (.cont (.mk fid .containerCls
        (.wseq .klist (L.map (fun i => mem.getD i (.vint 0)))) ns)) := by
  obtain ⟨i0, L1, rfl⟩ : ∃ i0 L1, L = i0 :: L1 := by
    cases L with
    | nil => exact absurd rfl hne
    | cons a as_ => exact ⟨a, as_, rfl⟩
  simp only [eachGetD]
  rw [if_neg (show ¬(isMapV (.vlist ((i0 :: L1).map (fun (i : Nat) => PyVal.vint (i : Int)))) = true) by
    rw [show isMapV (.vlist ((i0 :: L1).map (fun (i : Nat) => PyVal.vint (i : Int)))) = false from rfl]
    simp)]
  rw [if_pos (show (isIterableV (.vlist ((i0 :: L1).map (fun (i : Nat) => PyVal.vint (i : Int))))
      && !(isStrV (.vlist ((i0 :: L1).map (fun (i : Nat) => PyVal.vint (i : Int)))))) = true from rfl)]
  show (do
    let elems ← elemsOfIter fuel (.vlist ((i0 :: L1).map (fun (i : Nat) => PyVal.vint (i : Int))))
    if lenC (.vlist ((i0 :: L1).map (fun (i : Nat) => PyVal.vint (i : Int))))
        == lenWhole (Whole.wseq kind mem) && elems.all isBoolLit then
      match Whole.wseq kind mem with
      | .wmap ks vs => do
          let r ← maskEnumMapAux fuel ks vs 0 elems
          Except.ok (GetRes.cont (.mk fid .mapCls (.wmap r.1 r.2) ns))
      | .wseq _ mem2 =>
          Except.ok (GetRes.cont (.mk fid .containerCls
            (.wseq .klist (((mem2.zip elems).filter
              (fun (p : PyVal × PyVal) => isTrueLit p.2)).map
              (fun (p : PyVal × PyVal) => p.1)))
            ns))
    else do
      let vals ← exMap (pyGetWholeKey fuel (Whole.wseq kind mem)) elems
      Except.ok (GetRes.cont (.mk fid .containerCls (.wseq .klist vals) ns))) = _
  have helems : elemsOfIter fuel (.vlist ((i0 :: L1).map (fun (i : Nat) => PyVal.vint (i : Int))))
      = .ok ((i0 :: L1).map (fun (i : Nat) => PyVal.vint (i : Int))) := rfl
  rw [helems]
  simp only [Bind.bind, Except.bind]
  have hmask : ((i0 :: L1).map (fun (i : Nat) => PyVal.vint (i : Int))).all isBoolLit = false := by
    simp [isBoolLit]
  rw [hmask]
  simp only [Bool.and_false, Bool.false_eq_true, if_false]
  rw [exMap_map]
  have hwk : ∀ i ∈ (i0 :: L1), pyGetWholeKey fuel (Whole.wseq kind mem) (PyVal.vint (i : Int))
      = .ok (mem.getD i (.vint 0)) := fun i hi => pyGetSeqIdx_nat mem i (hL i hi)
  rw [exMap_ok_of_forall hwk]

theorem range_map_getD {α : Type} (l : List α) (d : α) :
    (List.range l.length).map (fun j => l.getD j d) = l := by
  apply List.ext_getElem
  · simp
  · intro j h1 h2
    simp [List.getElem_range, List.getD_eq_getElem?_getD, List.getElem?_eq_getElem h2]

/-- C6: for a sequence container and an index list L that is a permutation of
its positions, selecting with L and then with the inverse permutation
`argsort L` restores the original content: the final container holds the same
members in the same positions (and the same nesting spec) as the original. -/
theorem c6_index_list_round_trip (fuel f2 fid fid2 oid : Nat) (kind : SeqKind)
    (ns : NestSpec) (mem : List PyVal) (L : List Nat)
    (hL : L.Perm (List.range mem.length)) :
    ∃ F, eachGetD fuel fid (.mk oid .containerCls (.wseq kind mem) ns)
          (.ival (.vlist (L.map (fun (i : Nat) => PyVal.vint (i : Int))))) = .ok (.cont F)
      ∧ eachGetD f2 fid2 F
          (.ival (.vlist ((argsort L).map (fun (i : Nat) => PyVal.vint (i : Int)))))
        = .ok (.cont (.mk fid2 .containerCls (.wseq .klist mem) ns)) := by
  have hlen : L.length = mem.length := by simpa using hL.length_eq
  by_cases hmem : mem = []
  · subst hmem
    have hLnil : L = [] := by
      have h0 : L.Perm ([] : List Nat) := by simpa using hL
      exact h0.eq_nil
    subst hLnil
    exact ⟨.mk fid .containerCls (.wseq .klist []) ns, rfl, rfl⟩
  · have hne : L ≠ [] := by
      intro hc
      apply hmem
      have : mem.length = 0 := by rw [← hlen, hc]; rfl
      exact List.length_eq_zero.mp this
    have hLv : ∀ i ∈ L, i < mem.length := by
      intro i hi
      exact List.mem_range.mp (hL.mem_iff.mp hi)
    have happ1 := eachGetD_index_list fuel fid oid kind ns mem L hLv hne
    refine ⟨.mk fid .containerCls
      (.wseq .klist (L.map (fun i => mem.getD i (.vint 0)))) ns, happ1, ?_⟩
    have hne2 : argsort L ≠ [] := by
      intro hc
      apply hne
      have : (argsort L).length = 0 := by rw [hc]; rfl
      have hL0 : L.length = 0 := by simpa [argsort] using this
      exact List.length_eq_zero.mp hL0
    have hLv2 : ∀ i ∈ argsort L, i < (L.map (fun i => mem.getD i (.vint 0))).length := by
      intro i hi
      obtain ⟨j, hj, rfl⟩ := List.mem_map.mp hi
      have hjL : j ∈ L := by
        apply hL.mem_iff.mpr
        rw [hlen] at hj
        exact hj
      have := List.indexOf_lt_length.mpr hjL
      simpa using this
    have happ2 := eachGetD_index_list f2 fid2 fid .klist ns
      (L.map (fun i => mem.getD i (.vint 0))) (argsort L) hLv2 hne2
    rw [happ2]
    have hcomp : (argsort L).map
        (fun i => (L.map (fun i => mem.getD i (.vint 0))).getD i (.vint 0)) = mem := by
      unfold argsort
      rw [List.map_map, hlen]
      have hstep : ∀ j ∈ List.range mem.length,
          ((fun i => (L.map (fun i => mem.getD i (.vint 0))).getD i (.vint 0))
            ∘ (fun j => L.indexOf j)) j = mem.getD j (.vint 0) := by
        intro j hj
        have hjL : j ∈ L := by
          apply hL.mem_iff.mpr
          exact hj
        have hidx : L.indexOf j < L.length := List.indexOf_lt_length.mpr hjL
        simp only [Function.comp]
        rw [List.getD_eq_getElem?_getD,
          List.getElem?_eq_getElem (by simpa using hidx)]
        simp only [Option.getD_some]
        rw [List.getElem_map]
        rw [List.getElem_indexOf hidx]
      rw [List.map_congr_left hstep]
      exact range_map_getD mem (.vint 0)
    rw [hcomp]

/-- Witness for `c6_index_list_round_trip` at the permutation (2, 0, 1). -/
theorem c6_round_trip_witness :
    ∃ F, eachGetD 1 9 (.mk 1 .containerCls
          (.wseq .klist [.vint 10, .vint 20, .vint 30]) (.lvl 1))
          (.ival (.vlist (([2, 0, 1] : List Nat).map (fun (i : Nat) => PyVal.vint (i : Int)))))
        = .ok (.cont F)
      ∧ eachGetD 1 8 F
          (.ival (.vlist ((argsort [2, 0, 1]).map (fun (i : Nat) => PyVal.vint (i : Int)))))
        = .ok (.cont (.mk 8 .containerCls
            (.wseq .klist [.vint 10, .vint 20, .vint 30]) (.lvl 1))) :=
  c6_index_list_round_trip 1 1 9 8 1 .klist (.lvl 1)
    [.vint 10, .vint 20, .vint 30] [2, 0, 1] (by decide)

-- === helper lemmas: the contains / is_in pair ===

def memberList (E : EachC) : List PyVal :=
  match E.whole with
  | .wseq _ mem => mem
  | .wmap _ vs => vs

theorem exMap_congr {α β : Type} {f g : α → Except Err β} {l : List α}
    (h : ∀ x ∈ l, f x = g x) : exMap f l = exMap g l := by
  induction l with
  | nil => rfl
  | cons x xs ih =>
      have hx := h x (by simp)
      have hrest := ih (fun y hy => h y (by simp [hy]))
      simp [exMap, hx, hrest]

theorem exMap_zip_swap {α β γ : Type} (f : α × β → Except Err γ) (g : β × α → Except Err γ)
    (xs : List α) (ys : List β) (h : ∀ p ∈ xs.zip ys, f p = g (p.2, p.1)) :
    exMap f (xs.zip ys) = exMap g (ys.zip xs) := by
  rw [← List.zip_swap xs ys, exMap_map]
  exact exMap_congr (fun p hp => h p hp)

/-- The per-element bodies of `contains` and `is_in` agree on flat (non
each-wrapper) values: both compute the plain membership test with the same
orientation. -/
theorem containsElem_flat_true (f : Nat) (s i : PyVal)
    (hs : noEach s = true) (hi : noEach i = true) :
    containsElem f true s i = (pyIn f i s).map .vbool := by
  cases s <;> cases i <;>
    first
      | rfl
      | (cases f <;> rfl)
      | simp [noEach] at hs hi

theorem containsElem_flat_false (f : Nat) (s c : PyVal)
    (hs : noEach s = true) (hc : noEach c = true) :
    containsElem f false s c = (pyIn f s c).map .vbool := by
  cases s <;> cases c <;>
    first
      | rfl
      | (cases f <;> rfl)
      | simp [noEach] at hs hc

/-- A flat container-class sequence source aligned on its own length. -/
theorem bti_veach_self (fuel oid : Nat) (kind : SeqKind) (mem : List PyVal)
    (hflat : ∀ v ∈ mem, noEach v = true) :
    bti (fuel + 1) (.veach (.mk oid .containerCls (.wseq kind mem) (.lvl 1))) mem.length
      (.irange mem.length) = .ok mem := by
  by_cases h1 : mem.length = 1
  · obtain ⟨x, rfl⟩ := List.length_eq_one.mp h1
    simpa using bti_veach_single fuel oid kind (.lvl 1) x 1 (.irange 1)
      (valuesEach_lvl1 oid kind [x]) (hflat x (by simp))
  · exact bti_veach_flat (fuel + 1) oid kind (.lvl 1) mem mem.length
      (valuesEach_lvl1 oid kind mem) h1 (le_refl _)

theorem mkBH2_model_first (E : EachC) (o : PyVal) (h1 : lenWhole E.whole ≠ 1)
    (hcls : E.cls = .containerCls) :
    mkBH2 E o false = ⟨.veach E, as_sized_iterable o, E, lenWhole E.whole,
      .irange (lenWhole E.whole)⟩ := by
  unfold mkBH2 nonBroadcastable
  have hmap : isMapV (.veach E) = false := by simp [isMapV, hcls]
  have hlen : lenC (.veach E) = lenWhole E.whole := rfl
  simp [hmap, hlen, bne_iff_ne, h1]

theorem mkBH2_model_second (E X : EachC) (h1 : lenWhole E.whole = 1)
    (hE : E.cls = .containerCls) (hX : X.cls = .containerCls)
    (h2 : lenWhole X.whole ≠ 1) :
    mkBH2 E (.veach X) false
      = ⟨.veach E, .veach X, E, lenWhole X.whole, .irange (lenWhole X.whole)⟩ := by
  unfold mkBH2 nonBroadcastable
  have hmapE : isMapV (.veach E) = false := by simp [isMapV, hE]
  have hmapX : isMapV (.veach X) = false := by simp [isMapV, hX]
  have hlenE : lenC (.veach E) = lenWhole E.whole := rfl
  have hlenX : lenC (.veach X) = lenWhole X.whole := rfl
  simp [as_sized_iterable, hmapE, hmapX, hlenE, hlenX, bne_iff_ne, h1, h2]

theorem mkBH2_both_single (E X : EachC) (h1 : lenWhole E.whole = 1)
    (h2 : lenWhole X.whole = 1)
    (hE : E.cls = .containerCls) (hX : X.cls = .containerCls) :
    mkBH2 E (.veach X) false = ⟨.veach E, .veach X, E, 1, .irange 1⟩ := by
  unfold mkBH2 nonBroadcastable
  have hmapE : isMapV (.veach E) = false := by simp [isMapV, hE]
  have hmapX : isMapV (.veach X) = false := by simp [isMapV, hX]
  have hlenE : lenC (.veach E) = lenWhole E.whole := rfl
  have hlenX : lenC (.veach X) = lenWhole X.whole := rfl
  simp [as_sized_iterable, hmapE, hmapX, hlenE, hlenX, bne_iff_ne, h1, h2]

theorem bti_veach_self_n (fuel oid : Nat) (kind : SeqKind) (mem : List PyVal) (n : Nat)
    (hn : n = mem.length) (hflat : ∀ v ∈ mem, noEach v = true) :
    bti (fuel + 1) (.veach (.mk oid .containerCls (.wseq kind mem) (.lvl 1))) n
      (.irange n) = .ok mem := by
  subst hn
  exact bti_veach_self fuel oid kind mem hflat

/-- C9: distributed membership tests are dual: for flat sequence containers A
and B that can be aligned (equal lengths, or either a broadcastable
singleton), `A.contains(B)` and `B.is_in(A)` produce containers of booleans
that are equal element for element (the containers differ only in object
identity). -/
theorem c9_contains_is_in_duality (fuel fid1 fid2 ida idb : Nat) (ka kb : SeqKind)
    (as bs : List PyVal)
    (hA : ∀ v ∈ as, noEach v = true) (hB : ∀ v ∈ bs, noEach v = true)
    (hlen : as.length = bs.length ∨ as.length = 1 ∨ bs.length = 1) :
    (eachContains (fuel + 1) fid1 (.mk ida .containerCls (.wseq ka as) (.lvl 1))
        [.veach (.mk idb .containerCls (.wseq kb bs) (.lvl 1))]).map memberList
    = (eachIsIn (fuel + 1) fid2 (.mk idb .containerCls (.wseq kb bs) (.lvl 1))
        [.veach (.mk ida .containerCls (.wseq ka as) (.lvl 1))]).map memberList := by
  have hCA : eachContains (fuel + 1) fid1 (.mk ida .containerCls (.wseq ka as) (.lvl 1))
      [.veach (.mk idb .containerCls (.wseq kb bs) (.lvl 1))]
      = (do
          let ps ← bh2Pairs (fuel + 1)
            (mkBH2 (.mk ida .containerCls (.wseq ka as) (.lvl 1))
              (.veach (.mk idb .containerCls (.wseq kb bs) (.lvl 1))) false)
          let vals ← exMap (fun p => containsElem (fuel + 1) true p.1 p.2) ps
          Except.ok (bhCall (fuel + 1) fid1
            (mkBH2 (.mk ida .containerCls (.wseq ka as) (.lvl 1))
              (.veach (.mk idb .containerCls (.wseq kb bs) (.lvl 1))) false) vals)) := rfl
  have hIB : eachIsIn (fuel + 1) fid2 (.mk idb .containerCls (.wseq kb bs) (.lvl 1))
      [.veach (.mk ida .containerCls (.wseq ka as) (.lvl 1))]
      = (do
          let ps ← bh2Pairs (fuel + 1)
            (mkBH2 (.mk idb .containerCls (.wseq kb bs) (.lvl 1))
              (.veach (.mk ida .containerCls (.wseq ka as) (.lvl 1))) false)
          let vals ← exMap (fun p => containsElem (fuel + 1) false p.1 p.2) ps
          Except.ok (bhCall (fuel + 1) fid2
            (mkBH2 (.mk idb .containerCls (.wseq kb bs) (.lvl 1))
              (.veach (.mk ida .containerCls (.wseq ka as) (.lvl 1))) false) vals)) := rfl
  by_cases heq : as.length = bs.length
  · have hbh1 : mkBH2 (.mk ida .containerCls (.wseq ka as) (.lvl 1))
        (.veach (.mk idb .containerCls (.wseq kb bs) (.lvl 1))) false
        = ⟨.veach (.mk ida .containerCls (.wseq ka as) (.lvl 1)),
           .veach (.mk idb .containerCls (.wseq kb bs) (.lvl 1)),
           .mk ida .containerCls (.wseq ka as) (.lvl 1),
           as.length, .irange as.length⟩ := by
      by_cases h1 : as.length = 1
      · rw [h1]
        exact mkBH2_both_single _ _ h1 (show bs.length = 1 by omega) rfl rfl
      · exact mkBH2_model_first _ _ h1 rfl
    have hbh2 : mkBH2 (.mk idb .containerCls (.wseq kb bs) (.lvl 1))
        (.veach (.mk ida .containerCls (.wseq ka as) (.lvl 1))) false
        = ⟨.veach (.mk idb .containerCls (.wseq kb bs) (.lvl 1)),
           .veach (.mk ida .containerCls (.wseq ka as) (.lvl 1)),
           .mk idb .containerCls (.wseq kb bs) (.lvl 1),
           bs.length, .irange bs.length⟩ := by
      by_cases h1 : bs.length = 1
      · rw [h1]
        exact mkBH2_both_single _ _ h1 (show as.length = 1 by omega) rfl rfl
      · exact mkBH2_model_first _ _ h1 rfl
    have hps1 : bh2Pairs (fuel + 1)
        (⟨.veach (.mk ida .containerCls (.wseq ka as) (.lvl 1)),
          .veach (.mk idb .containerCls (.wseq kb bs) (.lvl 1)),
          .mk ida .containerCls (.wseq ka as) (.lvl 1),
          as.length, .irange as.length⟩ : BH2) = .ok (as.zip bs) := by
      unfold bh2Pairs
      dsimp only
      rw [bti_veach_self_n fuel ida ka as as.length rfl hA,
        bti_veach_self_n fuel idb kb bs as.length heq hB]
      rfl
    have hps2 : bh2Pairs (fuel + 1)
        (⟨.veach (.mk idb .containerCls (.wseq kb bs) (.lvl 1)),
          .veach (.mk ida .containerCls (.wseq ka as) (.lvl 1)),
          .mk idb .containerCls (.wseq kb bs) (.lvl 1),
          bs.length, .irange bs.length⟩ : BH2) = .ok (bs.zip as) := by
      unfold bh2Pairs
      dsimp only
      rw [bti_veach_self_n fuel idb kb bs bs.length rfl hB,
        bti_veach_self_n fuel ida ka as bs.length heq.symm hA]
      rfl
    have hswap : exMap (fun p => containsElem (fuel + 1) true p.1 p.2) (as.zip bs)
        = exMap (fun p => containsElem (fuel + 1) false p.1 p.2) (bs.zip as) := by
      apply exMap_zip_swap
      intro p hp
      have hpa : p.1 ∈ as := (List.of_mem_zip hp).1
      have hpb : p.2 ∈ bs := (List.of_mem_zip hp).2
      rw [containsElem_flat_true _ _ _ (hA _ hpa) (hB _ hpb)]
      rw [containsElem_flat_false _ _ _ (hB _ hpb) (hA _ hpa)]
    rw [hCA, hIB, hbh1, hbh2, hps1, hps2]
    simp only [Bind.bind, Except.bind]
    rw [← hswap]
    cases hx : exMap (fun p => containsElem (fuel + 1) true p.1 p.2) (as.zip bs) <;>
      simp [Except.map, memberList, bhCall, bhBuild, EachC.whole]
  · have hone : as.length = 1 ∨ bs.length = 1 := by
      rcases hlen with h | h | h
      · exact absurd h heq
      · exact Or.inl h
      · exact Or.inr h
    rcases hone with ha1 | hb1
    · have hbne : bs.length ≠ 1 := fun hc => heq (by omega)
      obtain ⟨a0, rfl⟩ := List.length_eq_one.mp ha1
      have hbh1 : mkBH2 (.mk ida .containerCls (.wseq ka [a0]) (.lvl 1))
          (.veach (.mk idb .containerCls (.wseq kb bs) (.lvl 1))) false
          = ⟨.veach (.mk ida .containerCls (.wseq ka [a0]) (.lvl 1)),
             .veach (.mk idb .containerCls (.wseq kb bs) (.lvl 1)),
             .mk ida .containerCls (.wseq ka [a0]) (.lvl 1),
             bs.length, .irange bs.length⟩ :=
        mkBH2_model_second
          (.mk ida .containerCls (.wseq ka [a0]) (.lvl 1))
          (.mk idb .containerCls (.wseq kb bs) (.lvl 1)) rfl rfl rfl hbne
      have hbh2 : mkBH2 (.mk idb .containerCls (.wseq kb bs) (.lvl 1))
          (.veach (.mk ida .containerCls (.wseq ka [a0]) (.lvl 1))) false
          = ⟨.veach (.mk idb .containerCls (.wseq kb bs) (.lvl 1)),
             .veach (.mk ida .containerCls (.wseq ka [a0]) (.lvl 1)),
             .mk idb .containerCls (.wseq kb bs) (.lvl 1),
             bs.length, .irange bs.length⟩ :=
        mkBH2_model_first
          (.mk idb .containerCls (.wseq kb bs) (.lvl 1))
          (.veach (.mk ida .containerCls (.wseq ka [a0]) (.lvl 1))) hbne rfl
      have hps1 : bh2Pairs (fuel + 1)
          (⟨.veach (.mk ida .containerCls (.wseq ka [a0]) (.lvl 1)),
            .veach (.mk idb .containerCls (.wseq kb bs) (.lvl 1)),
            .mk ida .containerCls (.wseq ka [a0]) (.lvl 1),
            bs.length, .irange bs.length⟩ : BH2)
          = .ok (bs.map (fun b => (a0, b))) := by
        unfold bh2Pairs
        dsimp only
        rw [bti_veach_single fuel ida ka (.lvl 1) a0 bs.length (.irange bs.length)
          (valuesEach_lvl1 ida ka [a0]) (hA a0 (by simp))]
        rw [bti_veach_self_n fuel idb kb bs bs.length rfl hB]
        rw [show ((Except.ok (List.replicate bs.length a0) : Except Err (List PyVal))
          >>= fun a => (Except.ok bs : Except Err (List PyVal))
          >>= fun b => Except.ok (a.zip b))
          = Except.ok ((List.replicate bs.length a0).zip bs) from rfl]
        rw [zip_replicate_self_left bs a0 bs.length (le_refl _)]
      have hps2 : bh2Pairs (fuel + 1)
          (⟨.veach (.mk idb .containerCls (.wseq kb bs) (.lvl 1)),
            .veach (.mk ida .containerCls (.wseq ka [a0]) (.lvl 1)),
            .mk idb .containerCls (.wseq kb bs) (.lvl 1),
            bs.length, .irange bs.length⟩ : BH2)
          = .ok (bs.map (fun b => (b, a0))) := by
        unfold bh2Pairs
        dsimp only
        rw [bti_veach_self_n fuel idb kb bs bs.length rfl hB]
        rw [bti_veach_single fuel ida ka (.lvl 1) a0 bs.length (.irange bs.length)
          (valuesEach_lvl1 ida ka [a0]) (hA a0 (by simp))]
        rw [show ((Except.ok bs : Except Err (List PyVal))
          >>= fun a => (Except.ok (List.replicate bs.length a0) : Except Err (List PyVal))
          >>= fun b => Except.ok (a.zip b))
          = Except.ok (bs.zip (List.replicate bs.length a0)) from rfl]
        rw [zip_replicate_self_right bs a0 bs.length (le_refl _)]
      have hswap : exMap (fun p => containsElem (fuel + 1) true p.1 p.2)
            (bs.map (fun b => (a0, b)))
          = exMap (fun p => containsElem (fuel + 1) false p.1 p.2)
            (bs.map (fun b => (b, a0))) := by
        rw [exMap_map, exMap_map]
        apply exMap_congr
        intro b hb
        rw [containsElem_flat_true _ _ _ (hA a0 (by simp)) (hB _ hb)]
        rw [containsElem_flat_false _ _ _ (hB _ hb) (hA a0 (by simp))]
      rw [hCA, hIB, hbh1, hbh2, hps1, hps2]
      simp only [Bind.bind, Except.bind]
      rw [hswap]
      cases hx : exMap (fun p => containsElem (fuel + 1) false p.1 p.2)
          (bs.map (fun b => (b, a0))) <;>
        simp [Except.map, memberList, bhCall, bhBuild, EachC.whole]
    · have hane : as.length ≠ 1 := fun hc => heq (by omega)
      obtain ⟨b0, rfl⟩ := List.length_eq_one.mp hb1
      have hbh1 : mkBH2 (.mk ida .containerCls (.wseq ka as) (.lvl 1))
          (.veach (.mk idb .containerCls (.wseq kb [b0]) (.lvl 1))) false
          = ⟨.veach (.mk ida .containerCls (.wseq ka as) (.lvl 1)),
             .veach (.mk idb .containerCls (.wseq kb [b0]) (.lvl 1)),
             .mk ida .containerCls (.wseq ka as) (.lvl 1),
             as.length, .irange as.length⟩ :=
        mkBH2_model_first
          (.mk ida .containerCls (.wseq ka as) (.lvl 1))
          (.veach (.mk idb .containerCls (.wseq kb [b0]) (.lvl 1))) hane rfl
      have hbh2 : mkBH2 (.mk idb .containerCls (.wseq kb [b0]) (.lvl 1))
          (.veach (.mk ida .containerCls (.wseq ka as) (.lvl 1))) false
          = ⟨.veach (.mk idb .containerCls (.wseq kb [b0]) (.lvl 1)),
             .veach (.mk ida .containerCls (.wseq ka as) (.lvl 1)),
             .mk idb .containerCls (.wseq kb [b0]) (.lvl 1),
             as.length, .irange as.length⟩ :=
        mkBH2_model_second
          (.mk idb .containerCls (.wseq kb [b0]) (.lvl 1))
          (.mk ida .containerCls (.wseq ka as) (.lvl 1)) rfl rfl rfl hane
      have hps1 : bh2Pairs (fuel + 1)
          (⟨.veach (.mk ida .containerCls (.wseq ka as) (.lvl 1)),
            .veach (.mk idb .containerCls (.wseq kb [b0]) (.lvl 1)),
            .mk ida .containerCls (.wseq ka as) (.lvl 1),
            as.length, .irange as.length⟩ : BH2)
          = .ok (as.map (fun a => (a, b0))) := by
        unfold bh2Pairs
        dsimp only
        rw [bti_veach_self_n fuel ida ka as as.length rfl hA]
        rw [bti_veach_single fuel idb kb (.lvl 1) b0 as.length (.irange as.length)
          (valuesEach_lvl1 idb kb [b0]) (hB b0 (by simp))]
        rw [show ((Except.ok as : Except Err (List PyVal))
          >>= fun a => (Except.ok (List.replicate as.length b0) : Except Err (List PyVal))
          >>= fun b => Except.ok (a.zip b))
          = Except.ok (as.zip (List.replicate as.length b0)) from rfl]
        rw [zip_replicate_self_right as b0 as.length (le_refl _)]
      have hps2 : bh2Pairs (fuel + 1)
          (⟨.veach (.mk idb .containerCls (.wseq kb [b0]) (.lvl 1)),
            .veach (.mk ida .containerCls (.wseq ka as) (.lvl 1)),
            .mk idb .containerCls (.wseq kb [b0]) (.lvl 1),
            as.length, .irange as.length⟩ : BH2)
          = .ok (as.map (fun a => (b0, a))) := by
        unfold bh2Pairs
        dsimp only
        rw [bti_veach_single fuel idb kb (.lvl 1) b0 as.length (.irange as.length)
          (valuesEach_lvl1 idb kb [b0]) (hB b0 (by simp))]
        rw [bti_veach_self_n fuel ida ka as as.length rfl hA]
        rw [show ((Except.ok (List.replicate as.length b0) : Except Err (List PyVal))
          >>= fun a => (Except.ok as : Except Err (List PyVal))
          >>= fun b => Except.ok (a.zip b))
          = Except.ok ((List.replicate as.length b0).zip as) from rfl]
        rw [zip_replicate_self_left as b0 as.length (le_refl _)]
      have hswap : exMap (fun p => containsElem (fuel + 1) true p.1 p.2)
            (as.map (fun a => (a, b0)))
          = exMap (fun p => containsElem (fuel + 1) false p.1 p.2)
            (as.map (fun a => (b0, a))) := by
        rw [exMap_map, exMap_map]
        apply exMap_congr
        intro a ha
        rw [containsElem_flat_true _ _ _ (hA _ ha) (hB b0 (by simp))]
        rw [containsElem_flat_false _ _ _ (hB b0 (by simp)) (hA _ ha)]
      rw [hCA, hIB, hbh1, hbh2, hps1, hps2]
      simp only [Bind.bind, Except.bind]
      rw [hswap]
      cases hx : exMap (fun p => containsElem (fuel + 1) false p.1 p.2)
          (as.map (fun a => (b0, a))) <;>
        simp [Except.map, memberList, bhCall, bhBuild, EachC.whole]

/-- Witness for `c9_contains_is_in_duality` on A = each([[1,2],[3,4]]) and
B = each(1, 4). -/
theorem c9_duality_witness :
    (eachContains 1 9 (.mk 1 .containerCls
        (.wseq .klist [.vlist [.vint 1, .vint 2], .vlist [.vint 3, .vint 4]]) (.lvl 1))
        [.veach (.mk 2 .containerCls (.wseq .klist [.vint 1, .vint 4]) (.lvl 1))]).map memberList
    = (eachIsIn 1 8 (.mk 2 .containerCls (.wseq .klist [.vint 1, .vint 4]) (.lvl 1))
        [.veach (.mk 1 .containerCls
          (.wseq .klist [.vlist [.vint 1, .vint 2], .vlist [.vint 3, .vint 4]]) (.lvl 1))]).map
        memberList :=
  c9_contains_is_in_duality 0 9 8 1 2 .klist .klist
    [.vlist [.vint 1, .vint 2], .vlist [.vint 3, .vint 4]] [.vint 1, .vint 4]
    (by decide) (by decide) (by decide)
